import Mathlib

/-!
# Verification of the lastfmq extraction and pagination pipeline

A shallow embedding, in Lean 4, of the core logic of `lastfmq.go`:
the attribute matcher (`containsAttr`), the cached tag-attribute
iterator (`iterTagAttr`), the page extractors (tags + sidebar,
wiki members, wiki biography/references, similar-artists page),
and the paginated collectors (sequential `readSimilarArtists` and
concurrent `readSimilarArtistsAsync`).

Conventions of the embedding:
* Go strings are `String`, Go slices are `List`, Go `(T, error)`
  results are `Except String T` (`.error e` models the Go pair
  `(nil, err)`, `.ok v` models `(v, nil)`).
* The HTML token stream (golang.org/x/net/html) is modelled as a
  `List Tok` of start-tag (with attributes), end-tag and text events;
  `Tokenizer.Next` at end of input reports an error, which for a fully
  tokenized page is `io.EOF`, so a loop driven by
  `tokenizer.Err() == nil` simply stops at the end of the list.
* Concurrency (`readSimilarArtistsAsync`) is modelled by a small-step
  transition relation over the shared page counter, the per-worker
  statuses and the sequence of values delivered over the result/error
  channels (the "trace", in delivery order); the caller's select loop
  is a fold over that trace.
-/

namespace Lastfmq

/-! ## String primitives

Go's `strings` helpers, modelled over the character sequence of a
`String` (Go operates on bytes, but all the literals involved are
ASCII, where the two views agree). -/

/-- `strings.Contains(s, sub)`: `sub` occurs as a contiguous substring
of `s`. -/
def goContains (s sub : String) : Bool :=
  decide (sub.data <:+: s.data)

/-- `strings.HasPrefix(s, pre)`. -/
def goStartsWith (s pre : String) : Bool :=
  decide (pre.data <+: s.data)

/-- `strings.TrimSpace(s)`: strip leading and trailing whitespace. -/
def trimSpace (s : String) : String :=
  ⟨((s.data.dropWhile Char.isWhitespace).reverse.dropWhile Char.isWhitespace).reverse⟩

/-! ## Attribute matcher (`containsAttr`, lastfmq.go lines 774-824) -/

/-- `type tagAttr struct` (lastfmq.go lines 774-778): one match rule of
the attribute matcher, built by `TagAttr(tagName, attrName, attrVals...)`. -/
structure TagAttrRule where
  tagName : String
  attrName : String
  attrVals : List String
deriving Repr, DecidableEq

/-- The inner `for iter.Next()` loop of `containsAttr` (lines 805-821):
scan the tag's attributes for the rule's attribute key and resolve the
rule's value; `none` means the rule failed. -/
def scanAttrs (r : TagAttrRule) : List (String × String) → Option String
  | [] => none
  | (key, val) :: rest =>
    if key ≠ r.attrName then scanAttrs r rest
    else match r.attrVals with
      | [] => some r.attrName
      | v0 :: _ =>
        if v0 = "*" then some val
        else match r.attrVals.find? (fun av => goContains val av) with
          | some av => some av
          | none => scanAttrs r rest

/-- `containsAttr` (lastfmq.go lines 785-824).  The tag name and its
attribute list stand for `tokenizer.TagName()` and the cached attribute
iterator (`hasAttr` is `attrs ≠ []`).  Rules are evaluated in order;
note that when the tag carries no attributes, a rule whose `attrName`
is non-empty returns `""` immediately (`if !hasAttr { return "" }`),
rather than falling through to the next rule. -/
def containsAttr (tagName : String) (attrs : List (String × String)) :
    List TagAttrRule → String
  | [] => ""
  | r :: rest =>
    if r.tagName ≠ tagName then containsAttr tagName attrs rest
    else if r.attrName = "" then r.tagName
    else if attrs.isEmpty then ""
    else match scanAttrs r attrs with
      | some v => v
      | none => containsAttr tagName attrs rest

/-- Modelled from the spec (section 4.1, "Attribute Matcher"): resolve a
single rule against the current tag, `none` when the rule fails.  An
empty `attributeName` matches on tag name alone and resolves to the tag
name; otherwise the attributes are searched for the key and the rule
resolves to the attribute name (no accepted values), the raw attribute
value (accepted values `["*"]`), or the first accepted value that is a
substring of the actual attribute value. -/
def specRuleResolve (tagName : String) (attrs : List (String × String))
    (r : TagAttrRule) : Option String :=
  if r.tagName ≠ tagName then none
  else if r.attrName = "" then some r.tagName
  else specScanAttrs r attrs
where
  /-- Search the attribute list for the rule's key and resolve. -/
  specScanAttrs (r : TagAttrRule) : List (String × String) → Option String
    | [] => none
    | (key, val) :: rest =>
      if key ≠ r.attrName then specScanAttrs r rest
      else match r.attrVals with
        | [] => some r.attrName
        | v0 :: _ =>
          if v0 = "*" then some val
          else match r.attrVals.find? (fun av => goContains val av) with
            | some av => some av
            | none => specScanAttrs r rest

/-- Modelled from the spec (section 4.1): evaluate the rules in order
and return the first match's resolved value; a failed rule — including
one whose required attribute key is absent from the tag's attributes —
passes evaluation on to the next rule; no match at all yields `""`. -/
def specContainsAttr (tagName : String) (attrs : List (String × String))
    (rules : List TagAttrRule) : String :=
  (rules.findSome? (specRuleResolve tagName attrs)).getD ""

theorem specScanAttrs_eq_scanAttrs (r : TagAttrRule) (attrs : List (String × String)) :
    specRuleResolve.specScanAttrs r attrs = scanAttrs r attrs := by
  induction attrs with
  | nil => rfl
  | cons kv rest ih =>
    obtain ⟨key, val⟩ := kv
    simp only [specRuleResolve.specScanAttrs, scanAttrs]
    split
    · exact ih
    · cases h : r.attrVals with
      | nil => rfl
      | cons v0 vs =>
        simp only
        split
        · rfl
        · split <;> simp [ih]

theorem containsAttr_eq_spec_of_attrs_ne_nil (tagName : String)
    (attrs : List (String × String)) (rules : List TagAttrRule)
    (h : attrs ≠ []) :
    containsAttr tagName attrs rules = specContainsAttr tagName attrs rules := by
  induction rules with
  | nil => rfl
  | cons r rest ih =>
    simp only [containsAttr, specContainsAttr, List.findSome?_cons]
    by_cases htag : r.tagName = tagName
    · simp only [htag, ne_eq, not_true_eq_false, if_false, ite_not]
      by_cases hattr : r.attrName = ""
      · simp [specRuleResolve, htag, hattr]
      · have : ¬ attrs.isEmpty := by simpa [List.isEmpty_iff] using h
        simp only [hattr, if_false, this, if_false]
        rw [show specRuleResolve tagName attrs r = scanAttrs r attrs by
          simp [specRuleResolve, htag, hattr, specScanAttrs_eq_scanAttrs]]
        cases hscan : scanAttrs r attrs with
        | some v => simp
        | none => simpa [specContainsAttr] using ih
    · have : r.tagName ≠ tagName := htag
      rw [if_pos this, show specRuleResolve tagName attrs r = none by
        simp [specRuleResolve, htag]]
      simpa [specContainsAttr] using ih

/-! ### Claim C1 -/

/-- C1, counterexample.  The claim states that a rule whose required
attribute key is absent from the tag's attributes causes evaluation to
proceed to the next rule.  On a tag with no attributes at all this
fails: with rules `[{ol, class, [big-tags]}, {ol, "", []}]` on an
attribute-less `ol` tag, the stated resolution would skip the failing
first rule and resolve the second to `"ol"`, but `containsAttr` returns
`""` (the `if !hasAttr { return "" }` short-circuit at line 799). -/
theorem C1_counterexample :
    containsAttr "ol" []
        [⟨"ol", "class", ["big-tags"]⟩, ⟨"ol", "", []⟩] = "" ∧
    specContainsAttr "ol" []
        [⟨"ol", "class", ["big-tags"]⟩, ⟨"ol", "", []⟩] = "ol" := by
  constructor <;> rfl

/-- C1, amended.  For every tag name, attribute list and ordered rule
list, provided the tag carries at least one attribute, `containsAttr`
returns the first rule's resolved value under the stated resolution
(empty `attributeName`: the tag name; empty `acceptedValues`: the
attribute name; `acceptedValues = ["*"]`: the raw attribute value;
otherwise the first accepted value that is a substring of the actual
attribute value), a failing rule passes evaluation to the next rule,
and no match across all rules yields the empty result.  (On a tag with
no attributes, the first tag-name-matching rule with a non-empty
attribute name instead terminates evaluation with the empty result.) -/
theorem C1_matcher_first_rule_resolution (tagName : String)
    (attrs : List (String × String)) (rules : List TagAttrRule)
    (h : attrs ≠ []) :
    containsAttr tagName attrs rules = specContainsAttr tagName attrs rules :=
  containsAttr_eq_spec_of_attrs_ne_nil tagName attrs rules h

/-- C1, witness: the amended theorem applied at a concrete input. -/
theorem C1_witness :
    containsAttr "ol" [("class", "big-tags foo")]
        [⟨"span", "", []⟩, ⟨"ol", "id", []⟩,
         ⟨"ol", "class", ["big-tags", "similar-items-sidebar"]⟩] =
      specContainsAttr "ol" [("class", "big-tags foo")]
        [⟨"span", "", []⟩, ⟨"ol", "id", []⟩,
         ⟨"ol", "class", ["big-tags", "similar-items-sidebar"]⟩] :=
  C1_matcher_first_rule_resolution _ _ _ (by simp)

/-! ## Cached tag-attribute iterator (`iterTagAttr`, lastfmq.go lines 826-853) -/

/-- `Tokenizer.TagAttr()` of golang.org/x/net/html, on the unread
attributes of the current tag token: pop the next attribute, reporting
whether more remain; with no attributes left it yields empty strings
and `more = false`. -/
def tagAttrCall : List (String × String) → (String × String) × Bool × List (String × String)
  | [] => (("", ""), false, [])
  | [kv] => (kv, false, [])
  | kv :: rest => (kv, true, rest)

/-- `type iterTagAttr struct` (lastfmq.go lines 826-831).  The
embedded `*html.Tokenizer` is represented by its remaining unread
attribute list for the current tag (`none` models the nil pointer the
iterator uses to mark the source as exhausted). -/
structure IterTagAttr where
  tokenizer : Option (List (String × String))
  pos : Int
  keys : List String
  vals : List String
deriving Repr, DecidableEq

/-- `NewIter` (lastfmq.go lines 833-835). -/
def NewIter (attrs : List (String × String)) : IterTagAttr :=
  ⟨some attrs, -1, [], []⟩

/-- `(*iterTagAttr).Next` (lastfmq.go lines 837-846), as a pure state
transformer: advance `pos`; while the tokenizer is live, read one
key/value pair from it into the cache (dropping the tokenizer once it
reports no more attributes); report whether `pos` is a valid cache
index. -/
def IterTagAttr.next (i : IterTagAttr) : Bool × IterTagAttr :=
  let pos := i.pos + 1
  match i.tokenizer with
  | some src =>
    let ((k, v), more, rest) := tagAttrCall src
    let it : IterTagAttr :=
      ⟨if more then some rest else none, pos, i.keys ++ [k], i.vals ++ [v]⟩
    (pos < (it.keys.length : Int), it)
  | none =>
    (pos < (i.keys.length : Int), { i with pos := pos })

/-- `(*iterTagAttr).Reset` (lastfmq.go lines 848-850). -/
def IterTagAttr.reset (i : IterTagAttr) : IterTagAttr :=
  { i with pos := -1 }

/-- `(*iterTagAttr).Attrs` (lastfmq.go lines 852-854).  Only
meaningful after a `next` that returned `true` (Go would panic on an
out-of-range `pos`; the embedding totalizes with empty strings). -/
def IterTagAttr.attrs (i : IterTagAttr) : String × String :=
  (i.keys.getD i.pos.toNat "", i.vals.getD i.pos.toNat "")

/-- A full `for iter.Next() { ... iter.Attrs() ... }` pass, collecting
the yielded key/value pairs; `fuel` bounds the number of `next` calls. -/
def IterTagAttr.run : Nat → IterTagAttr → List (String × String) × IterTagAttr
  | 0, it => ([], it)
  | fuel + 1, it =>
    match it.next with
    | (false, it') => ([], it')
    | (true, it') =>
      let (rest, itF) := IterTagAttr.run fuel it'
      (it'.attrs :: rest, itF)

/-- Enough fuel to drive `run` to the point where `next` returns
`false`: one call per unread source attribute, one per cached entry,
and one final failing call. -/
def IterTagAttr.fuelBound (i : IterTagAttr) : Nat :=
  (match i.tokenizer with | some l => l.length | none => 0) + i.keys.length + 2

/-- One full iteration pass from an arbitrary iterator state. -/
def IterTagAttr.runAll (i : IterTagAttr) : List (String × String) × IterTagAttr :=
  i.run i.fuelBound

/-- The sequence a full pass reads from a live tokenizer holding
`attrs`: the attributes themselves, except that a tag with no
attributes yields a single empty pair (`TagAttr` is called once before
`more = false` is observed). -/
def tagSeq (attrs : List (String × String)) : List (String × String) :=
  if attrs.isEmpty then [("", "")] else attrs

theorem IterTagAttr.next_cached_true (keys vals : List String) (p : Nat)
    (h : p < keys.length) :
    IterTagAttr.next ⟨none, (p : Int) - 1, keys, vals⟩ =
      (true, ⟨none, (p : Int), keys, vals⟩) := by
  simp only [IterTagAttr.next, sub_add_cancel, Prod.mk.injEq, decide_eq_true_eq]
  exact ⟨by exact_mod_cast h, trivial⟩

theorem IterTagAttr.next_cached_false (keys vals : List String) (p : Nat)
    (h : ¬ p < keys.length) :
    IterTagAttr.next ⟨none, (p : Int) - 1, keys, vals⟩ =
      (false, ⟨none, (p : Int), keys, vals⟩) := by
  simp only [IterTagAttr.next, sub_add_cancel, Prod.mk.injEq, decide_eq_false_iff_not,
    not_lt]
  exact ⟨by exact_mod_cast Nat.le_of_not_lt h, trivial⟩

theorem IterTagAttr.attrs_cached (keys vals : List String) (p : Nat)
    (tk : Option (List (String × String))) :
    IterTagAttr.attrs ⟨tk, (p : Int), keys, vals⟩ =
      (keys.getD p "", vals.getD p "") := by
  simp [IterTagAttr.attrs]

theorem IterTagAttr.run_cached (keys vals : List String) (hlen : vals.length = keys.length) :
    ∀ (fuel p : Nat), keys.length - p < fuel → p ≤ keys.length →
      IterTagAttr.run fuel ⟨none, (p : Int) - 1, keys, vals⟩ =
        ((keys.zip vals).drop p, ⟨none, (keys.length : Int), keys, vals⟩) := by
  intro fuel
  induction fuel with
  | zero => omega
  | succ fuel ih =>
    intro p hp hple
    by_cases hlt : p < keys.length
    · simp only [IterTagAttr.run, IterTagAttr.next_cached_true keys vals p hlt]
      rw [IterTagAttr.attrs_cached]
      have hcast : (p : Int) = ((p + 1 : Nat) : Int) - 1 := by push_cast; ring
      rw [show (⟨none, (p : Int), keys, vals⟩ : IterTagAttr) =
            ⟨none, ((p + 1 : Nat) : Int) - 1, keys, vals⟩ by rw [← hcast]]
      rw [ih (p + 1) (by omega) (by omega)]
      have : (keys.zip vals).drop p =
          (keys.getD p "", vals.getD p "") :: (keys.zip vals).drop (p + 1) := by
        have hzlen : p < (keys.zip vals).length := by
          rw [List.length_zip]; omega
        rw [List.getD_eq_getElem _ _ hlt, List.getD_eq_getElem _ _ (by omega : p < vals.length)]
        rw [List.drop_eq_getElem_cons hzlen]
        congr 1
        rw [List.getElem_zip]
      rw [this]
    · simp only [IterTagAttr.run, IterTagAttr.next_cached_false keys vals p hlt]
      have h1 : (keys.zip vals).drop p = [] := by
        rw [List.drop_eq_nil_of_le]
        rw [List.length_zip]
        omega
      have h2 : (p : Int) = (keys.length : Int) := by omega
      rw [h1, h2]

theorem IterTagAttr.next_live_nil (keys vals : List String) :
    IterTagAttr.next ⟨some [], (keys.length : Int) - 1, keys, vals⟩ =
      (true, ⟨none, (keys.length : Int), keys ++ [""], vals ++ [""]⟩) := by
  simp [IterTagAttr.next, tagAttrCall, sub_add_cancel]

theorem IterTagAttr.next_live_one (kv : String × String) (keys vals : List String) :
    IterTagAttr.next ⟨some [kv], (keys.length : Int) - 1, keys, vals⟩ =
      (true, ⟨none, (keys.length : Int), keys ++ [kv.1], vals ++ [kv.2]⟩) := by
  obtain ⟨k, v⟩ := kv
  simp [IterTagAttr.next, tagAttrCall, sub_add_cancel]

theorem IterTagAttr.next_live_cons (kv kv2 : String × String)
    (rest : List (String × String)) (keys vals : List String) :
    IterTagAttr.next ⟨some (kv :: kv2 :: rest), (keys.length : Int) - 1, keys, vals⟩ =
      (true, ⟨some (kv2 :: rest), (keys.length : Int), keys ++ [kv.1], vals ++ [kv.2]⟩) := by
  obtain ⟨k, v⟩ := kv
  simp [IterTagAttr.next, tagAttrCall, sub_add_cancel]

theorem getD_concat (l : List String) (a d : String) (n : Nat) (h : n = l.length) :
    (l ++ [a]).getD n d = a := by
  subst h
  rw [List.getD_eq_getElem _ d (by simp)]
  simp

theorem IterTagAttr.run_consume :
    ∀ (src : List (String × String)) (fuel : Nat) (keys vals : List String),
      vals.length = keys.length → (tagSeq src).length + 1 ≤ fuel →
      IterTagAttr.run fuel ⟨some src, (keys.length : Int) - 1, keys, vals⟩ =
        (tagSeq src,
          ⟨none, ((keys.length + (tagSeq src).length : Nat) : Int),
            keys ++ (tagSeq src).map Prod.fst, vals ++ (tagSeq src).map Prod.snd⟩) := by
  intro src
  induction src with
  | nil =>
    intro fuel keys vals hlen hfuel
    match fuel, hfuel with
    | fuel + 1, hf =>
      simp only [IterTagAttr.run, IterTagAttr.next_live_nil]
      rw [show ((keys.length : Int)) = (((keys ++ [""]).length : Nat) : Int) - 1 by
        push_cast; simp]
      rw [IterTagAttr.run_cached (keys ++ [""]) (vals ++ [""]) (by simp [hlen])
        fuel (keys ++ [""]).length (by simp [tagSeq] at hf ⊢; omega) (le_refl _)]
      rw [show (((keys ++ [""]).length : Nat) : Int) - 1 = ((keys.length : Nat) : Int) by
        push_cast; simp]
      rw [IterTagAttr.attrs_cached, getD_concat keys "" "" _ rfl,
        getD_concat vals "" "" _ hlen.symm]
      simp [tagSeq]
  | cons kv rest ih =>
    intro fuel keys vals hlen hfuel
    match fuel, hfuel with
    | fuel + 1, hf =>
      cases rest with
      | nil =>
        simp only [IterTagAttr.run, IterTagAttr.next_live_one]
        rw [show ((keys.length : Int)) = (((keys ++ [kv.1]).length : Nat) : Int) - 1 by
          push_cast; simp]
        rw [IterTagAttr.run_cached (keys ++ [kv.1]) (vals ++ [kv.2]) (by simp [hlen])
          fuel (keys ++ [kv.1]).length (by simp [tagSeq] at hf ⊢; omega) (le_refl _)]
        rw [show (((keys ++ [kv.1]).length : Nat) : Int) - 1 = ((keys.length : Nat) : Int) by
          push_cast; simp]
        rw [IterTagAttr.attrs_cached, getD_concat keys kv.1 "" _ rfl,
          getD_concat vals kv.2 "" _ hlen.symm]
        simp [tagSeq]
      | cons kv2 rs =>
        simp only [IterTagAttr.run, IterTagAttr.next_live_cons]
        rw [show ((keys.length : Int)) = (((keys ++ [kv.1]).length : Nat) : Int) - 1 by
          push_cast; simp]
        rw [ih fuel (keys ++ [kv.1]) (vals ++ [kv.2]) (by simp [hlen])
          (by simp [tagSeq] at hf ⊢; omega)]
        rw [show (((keys ++ [kv.1]).length : Nat) : Int) - 1 = ((keys.length : Nat) : Int) by
          push_cast; simp]
        rw [IterTagAttr.attrs_cached, getD_concat keys kv.1 "" _ rfl,
          getD_concat vals kv.2 "" _ hlen.symm]
        have hts : tagSeq (kv :: kv2 :: rs) = kv :: tagSeq (kv2 :: rs) := by
          simp [tagSeq]
        rw [hts]
        simp only [List.map_cons, List.length_cons, Prod.mk.injEq, List.cons_append,
          List.append_assoc, List.singleton_append, List.length_append]
        refine ⟨trivial, ?_⟩
        simp only [List.nil_append, List.length_nil]
        congr 2
        omega

theorem newIter_runAll (attrs : List (String × String)) :
    (NewIter attrs).runAll =
      (tagSeq attrs,
        ⟨none, ((tagSeq attrs).length : Int),
          (tagSeq attrs).map Prod.fst, (tagSeq attrs).map Prod.snd⟩) := by
  have hpos : (⟨some attrs, -1, [], []⟩ : IterTagAttr) =
      ⟨some attrs, ((([] : List String).length : Nat) : Int) - 1, [], []⟩ := by
    norm_num
  have hfuel : (tagSeq attrs).length + 1 ≤ attrs.length + 0 + 2 := by
    cases attrs <;> simp [tagSeq]
  unfold NewIter IterTagAttr.runAll IterTagAttr.fuelBound
  rw [hpos, IterTagAttr.run_consume attrs _ [] [] rfl (by simpa using hfuel)]
  simp

theorem runAll_cached (keys vals : List String) (hlen : vals.length = keys.length) :
    (⟨none, -1, keys, vals⟩ : IterTagAttr).runAll =
      (keys.zip vals, ⟨none, (keys.length : Int), keys, vals⟩) := by
  have hpos : (⟨none, -1, keys, vals⟩ : IterTagAttr) =
      ⟨none, ((0 : Nat) : Int) - 1, keys, vals⟩ := by
    norm_num
  unfold IterTagAttr.runAll IterTagAttr.fuelBound
  rw [hpos, IterTagAttr.run_cached keys vals hlen _ 0 (by simp) (by omega)]
  simp

/-- C10.  The tag-attribute iterator caches key/value pairs as it
advances: iterating all attributes of a tag-open token via
`Next`/`Attrs`, then calling `Reset` and iterating again, yields
exactly the same ordered sequence of key/value pairs, and the second
pass is a pure replay — the cache is unchanged and the tokenizer
source, already exhausted by the first pass, is not read again. -/
theorem C10_iterator_replay (attrs : List (String × String)) :
    ((NewIter attrs).runAll.2.reset).runAll.1 = (NewIter attrs).runAll.1 ∧
    ((NewIter attrs).runAll.2.reset).runAll.2.tokenizer = none ∧
    ((NewIter attrs).runAll.2.reset).runAll.2.keys = (NewIter attrs).runAll.2.keys ∧
    ((NewIter attrs).runAll.2.reset).runAll.2.vals = (NewIter attrs).runAll.2.vals := by
  rw [newIter_runAll]
  have hreset : ((tagSeq attrs, (⟨none, ((tagSeq attrs).length : Int),
      (tagSeq attrs).map Prod.fst, (tagSeq attrs).map Prod.snd⟩ : IterTagAttr)) :
        List (String × String) × IterTagAttr).2.reset =
      ⟨none, -1, (tagSeq attrs).map Prod.fst, (tagSeq attrs).map Prod.snd⟩ := rfl
  rw [hreset, runAll_cached _ _ (by simp)]
  refine ⟨?_, rfl, rfl, rfl⟩
  simp [List.zip_map']

/-! ## Token stream -/

/-- One event of the html token stream (golang.org/x/net/html):
tag-open with its attribute list, tag-close, or a text node. -/
inductive Tok
  | start (name : String) (attrs : List (String × String))
  | endT (name : String)
  | text (s : String)
deriving Repr, DecidableEq

/-- `tokenizer.TagName()`: the tag name of a tag token (`TagName` is
only valid on tag tokens and yields nil — here `""` — on text tokens,
so no tag-name rule can match a text token). -/
def Tok.tagName : Tok → String
  | .start n _ => n
  | .endT n => n
  | .text _ => ""

/-- The attribute list of a tag-open token (end tags and text carry
no attributes). -/
def Tok.attrsOf : Tok → List (String × String)
  | .start _ a => a
  | _ => []

/-! ## Tags + similar-sidebar extractor (`readTags`, lastfmq.go lines 693-772) -/

/-- The token loop of `readTags` (lastfmq.go lines 718-765), with the
full loop state: the two output lists, the two section flags and the
`numEntites` countdown (initialized to 3 at line 718).  The third
component of the result is the part of the token stream left
unconsumed when the loop exits (empty when the loop ran to the end of
the stream; `break loop` at line 738 leaves a remainder). -/
def readTagsLoop : List Tok → List String → List String → Bool → Bool → Int →
    List String × List String × List Tok
  | [], tags, similar, _, _, _ => (tags, similar, [])
  | .endT name :: rest, tags, similar, startTags, startSimilar, numEntites =>
    if startTags || startSimilar then
      let dec := containsAttr name [] [⟨"ol", "", []⟩] ≠ ""
      let numEntites1 := numEntites - (if dec && startTags then 1 else 0)
        - (if dec && startSimilar then 1 else 0)
      let startTags1 := if dec then false else startTags
      let startSimilar1 := if dec then false else startSimilar
      if numEntites1 = 0 then (tags, similar, rest)
      else readTagsLoop rest tags similar startTags1 startSimilar1 numEntites1
    else readTagsLoop rest tags similar startTags startSimilar numEntites
  | .start name attrs :: rest, tags, similar, startTags, startSimilar, numEntites =>
    if startTags || startSimilar then
      if containsAttr name attrs [⟨"a", "class", ["link-block-target"]⟩] ≠ "" then
        match rest with
        | .text txt :: rest2 =>
          readTagsLoop rest2 (if startTags then tags ++ [txt] else tags)
            (if startSimilar then similar ++ [txt] else similar)
            startTags startSimilar numEntites
        | _ :: rest2 => readTagsLoop rest2 tags similar startTags startSimilar numEntites
        | [] => (tags, similar, [])
      else readTagsLoop rest tags similar startTags startSimilar numEntites
    else
      match containsAttr name attrs [⟨"ol", "class", ["big-tags", "similar-items-sidebar"]⟩] with
      | "big-tags" => readTagsLoop rest tags similar true startSimilar numEntites
      | "similar-items-sidebar" => readTagsLoop rest tags similar startTags true numEntites
      | _ => readTagsLoop rest tags similar startTags startSimilar numEntites
  | .text _ :: rest, tags, similar, startTags, startSimilar, numEntites =>
    readTagsLoop rest tags similar startTags startSimilar numEntites

/-- `readTags` (lastfmq.go lines 693-772) applied to the token stream
of a fetched tags page (the band-name and HTTP checks that precede
tokenization are external collaborators). -/
def readTags (toks : List Tok) : List String × List String × List Tok :=
  readTagsLoop toks [] [] false false 3

/-! ### Claim C5 -/

/-- C5 (code bug).  The claim — and spec section 4.4 — say the
countdown starts at two (the number of distinct target lists), so the
pass terminates as soon as both target lists have closed, consuming no
further tokens.  In the code `numEntites` starts at 3 (line 718) with
only two decrement sites, so after both lists close the countdown sits
at 1, the `break` never fires, and the pass keeps consuming tokens: in
this input a third matching list appearing after both target lists
have closed is still extracted (`"INTRUDER"` ends up in the tags) and
the stream is consumed to its end, where the claim requires the pass
to stop right after the second close with
`(["rock"], ["simA"])` extracted and four tokens left unconsumed. -/
theorem C5_no_early_termination :
    readTags
      [.start "ol" [("class", "big-tags")],
       .start "a" [("class", "link-block-target")], .text "rock",
       .endT "ol",
       .start "ol" [("class", "similar-items-sidebar")],
       .start "a" [("class", "link-block-target")], .text "simA",
       .endT "ol",
       .start "ol" [("class", "big-tags")],
       .start "a" [("class", "link-block-target")], .text "INTRUDER",
       .endT "ol"] = (["rock", "INTRUDER"], ["simA"], []) := by
  decide

/-! ## Wiki members extractor (`readWiki`, lastfmq.go lines 496-530) -/

/-- `type Member struct` (lastfmq.go lines 442-445); an appended member
starts with an empty years-active string (`&Member{Name: txt}`). -/
structure Member where
  name : String
  yearsActive : String
deriving Repr, DecidableEq

/-- `wiki.Members[len(wiki.Members)-1].YearsActive = txt` (line 526):
overwrite the years-active string of the most recently appended
member; on an empty list the write would panic, but the code guards it
with `len(wiki.Members) > 0`. -/
def setLastYears : List Member → String → List Member
  | [], _ => []
  | [m], y => [⟨m.name, y⟩]
  | m :: m2 :: ms, y => m :: setLastYears (m2 :: ms) y

/-- The Members token loop of `readWiki` (lastfmq.go lines 511-530):
until the enclosing `ul` closes, each non-empty trimmed text fragment
either becomes that fragment's years-active string of the most
recently appended member (fragment starts with `"("` and a member
exists) or is appended as a new member name. -/
def readWikiMembersLoop : List Tok → List Member → List Member
  | [], ms => ms
  | .endT name :: rest, ms =>
    if containsAttr name [] [⟨"ul", "", []⟩] ≠ "" then ms
    else readWikiMembersLoop rest ms
  | .start _ _ :: rest, ms => readWikiMembersLoop rest ms
  | .text s :: rest, ms =>
    let txt := trimSpace s
    if txt = "" then readWikiMembersLoop rest ms
    else if goStartsWith txt "(" && decide (0 < ms.length) then
      readWikiMembersLoop rest (setLastYears ms txt)
    else readWikiMembersLoop rest (ms ++ [⟨txt, ""⟩])

theorem setLastYears_map_name (ms : List Member) (y : String) :
    (setLastYears ms y).map Member.name = ms.map Member.name := by
  induction ms with
  | nil => rfl
  | cons m ms ih =>
    cases ms with
    | nil => rfl
    | cons m2 ms2 => simp only [setLastYears, List.map_cons] at ih ⊢; rw [ih]

theorem setLastYears_length (ms : List Member) (y : String) :
    (setLastYears ms y).length = ms.length := by
  have h := congrArg List.length (setLastYears_map_name ms y)
  simpa using h

theorem setLastYears_getLast (ms : List Member) (y : String) (h : ms ≠ []) :
    ((setLastYears ms y).getLast?).map Member.yearsActive = some y := by
  induction ms with
  | nil => exact absurd rfl h
  | cons m ms ih =>
    cases ms with
    | nil => rfl
    | cons m2 ms2 =>
      obtain ⟨h0, t0, heq⟩ : ∃ h0 t0, setLastYears (m2 :: ms2) y = h0 :: t0 := by
        cases ms2 with
        | nil => exact ⟨⟨m2.name, y⟩, [], rfl⟩
        | cons m3 ms3 => exact ⟨m2, setLastYears (m3 :: ms3) y, rfl⟩
      rw [setLastYears, heq, List.getLast?_cons_cons, ← heq]
      exact ih (by simp)

theorem setLastYears_dropLast (ms : List Member) (y : String) :
    (setLastYears ms y).dropLast = ms.dropLast := by
  induction ms with
  | nil => rfl
  | cons m ms ih =>
    cases ms with
    | nil => rfl
    | cons m2 ms2 =>
      obtain ⟨h0, t0, heq⟩ : ∃ h0 t0, setLastYears (m2 :: ms2) y = h0 :: t0 := by
        cases ms2 with
        | nil => exact ⟨⟨m2.name, y⟩, [], rfl⟩
        | cons m3 ms3 => exact ⟨m2, setLastYears (m3 :: ms3) y, rfl⟩
      rw [setLastYears, heq, List.dropLast_cons₂, ← heq, ih, List.dropLast_cons₂]

/-! ### Claim C7 -/

/-- C7, counterexample.  The claim says a fragment starting with `"("`
that precedes any member is dropped and does not appear in the member
list.  In the code the guard `len(wiki.Members) > 0` fails and the
`else` branch appends the fragment as a new member name (line 528):
here `"(1987 - present)"` becomes the first member's name. -/
theorem C7_counterexample :
    (readWikiMembersLoop
        [.text "(1987 - present)", .text "Alice", .endT "ul"] []).map Member.name =
      ["(1987 - present)", "Alice"] := by
  decide

/-- C7, amended.  In the Members section, every non-empty trimmed text
fragment starting with `"("` that follows at least one already-appended
member is attached as the years-active string of the most recently
appended member (the other members and the member names are unchanged);
a fragment starting with `"("` that precedes any member is not dropped
but appended as a new member whose name is the fragment. -/
theorem C7_member_years_attachment (s : String) (toks : List Tok) (ms : List Member)
    (h1 : trimSpace s ≠ "") (h2 : goStartsWith (trimSpace s) "(" = true) :
    (ms = [] → readWikiMembersLoop (.text s :: toks) ms =
        readWikiMembersLoop toks [⟨trimSpace s, ""⟩]) ∧
    (ms ≠ [] →
      readWikiMembersLoop (.text s :: toks) ms =
        readWikiMembersLoop toks (setLastYears ms (trimSpace s)) ∧
      (setLastYears ms (trimSpace s)).map Member.name = ms.map Member.name ∧
      ((setLastYears ms (trimSpace s)).getLast?).map Member.yearsActive =
        some (trimSpace s) ∧
      (setLastYears ms (trimSpace s)).dropLast = ms.dropLast) := by
  constructor
  · intro hnil
    subst hnil
    simp [readWikiMembersLoop, h1, h2]
  · intro hne
    refine ⟨?_, setLastYears_map_name ms _, setLastYears_getLast ms _ hne,
      setLastYears_dropLast ms _⟩
    have hlen : 0 < ms.length := List.length_pos.mpr hne
    simp [readWikiMembersLoop, h1, h2, decide_eq_true hlen]

/-- C7, witness: the amended theorem applied at a concrete input. -/
theorem C7_witness :
    readWikiMembersLoop [.text " (1987) "] [⟨"Alice", ""⟩] =
      readWikiMembersLoop [] (setLastYears [⟨"Alice", ""⟩] (trimSpace " (1987) ")) :=
  ((C7_member_years_attachment " (1987) " [] [⟨"Alice", ""⟩]
      (by decide) (by decide)).2 (by simp)).1

/-! ## Wiki biography/references extractor (`readWiki`, lastfmq.go lines 532-611) -/

/-- `type Ref struct` (lastfmq.go lines 437-440). -/
structure Ref where
  name : String
  reference : String
deriving Repr, DecidableEq

/-- The local state of the `readbio_loop` in `readWiki` (lines
534-539), together with the two `wiki` fields it writes (`wiki.Bio`
and `wiki.Refs`); `refsSeen` is the Go map, kept as an assoc list in
insertion order (only key membership is ever read). -/
structure WikiAcc where
  bioOut : List String
  refs : List Ref
  refsSeen : List (String × String)
  bio : List String
  quote : Bool
  br : Bool
  ref : String
deriving Repr, DecidableEq

/-- The fresh state at entry of the `wiki-content` section. -/
def initWikiAcc : WikiAcc := ⟨[], [], [], [], false, false, ""⟩

/-- `bio[len(bio)-1] += "\n"` (line 603). -/
def appendNewlineLast : List String → List String
  | [] => []
  | [x] => [x ++ "\n"]
  | x :: y :: r => x :: appendNewlineLast (y :: r)

/-- The four rules of the `readbio_loop` switch (lines 544-548). -/
def wikiContentRules : List TagAttrRule :=
  [⟨"p", "", []⟩, ⟨"div", "", []⟩, ⟨"br", "", []⟩, ⟨"a", "", []⟩]

/-- The paragraph flush on closing a `p` element (lines 561-563):
join the accumulated fragments, trim, split on embedded newlines into
output paragraphs, and reset the buffer. -/
def flushBio (acc : WikiAcc) : WikiAcc :=
  if acc.bio.isEmpty then acc
  else
    { acc with
      bioOut := acc.bioOut ++ (trimSpace (String.join acc.bio)).splitOn "\n",
      bio := [] }

/-- Processing of one non-empty text node (lines 592-610): record a
reference if a hyperlink target is pending and the display text is
unseen, append a pending line break to the previous fragment, wrap
quoted text with the reference format, append to the paragraph buffer,
and clear the `br`/`quote`/`ref` state. -/
def textStep (fmtRef : String → String) (acc : WikiAcc) (s : String) : WikiAcc :=
  let recordRef := (acc.ref != "") && (acc.refsSeen.find? (fun kv => kv.1 == s)).isNone
  let refs := if recordRef then acc.refs ++ [⟨s, acc.ref⟩] else acc.refs
  let seen := if recordRef then acc.refsSeen ++ [(s, acc.ref)] else acc.refsSeen
  let bio1 := if acc.br && !acc.bio.isEmpty then appendNewlineLast acc.bio else acc.bio
  let s1 := if acc.quote then fmtRef s else s
  ⟨acc.bioOut, refs, seen, bio1 ++ [s1], false, false, ""⟩

/-- The `readbio_loop` of `readWiki` (lastfmq.go lines 541-611),
parameterized by the caller-supplied reference format (`refFormat`,
default `%q`).  The loop ends at the closing tag of the wrapping `div`
or at end of stream. -/
def readWikiContentLoop (fmtRef : String → String) : List Tok → WikiAcc → WikiAcc
  | [], acc => acc
  | tok :: rest, acc =>
    let c := containsAttr tok.tagName tok.attrsOf wikiContentRules
    if c = "div" then
      match tok with
      | .endT _ => acc
      | _ => readWikiContentLoop fmtRef rest acc
    else if c = "p" then
      match tok with
      | .endT _ => readWikiContentLoop fmtRef rest (flushBio acc)
      | _ => readWikiContentLoop fmtRef rest acc
    else if c = "br" then
      readWikiContentLoop fmtRef rest { acc with br := true }
    else if c = "a" then
      match tok with
      | .start _ attrs =>
        readWikiContentLoop fmtRef rest
          { acc with
            quote := true
            ref := (match attrs.find? (fun kv => kv.1 == "href") with
                    | some kv => kv.2
                    | none => acc.ref) }
      | _ => readWikiContentLoop fmtRef rest acc
    else
      match tok with
      | .text s =>
        if s = "" then readWikiContentLoop fmtRef rest acc
        else readWikiContentLoop fmtRef rest (textStep fmtRef acc s)
      | _ => readWikiContentLoop fmtRef rest acc

/-- The sequence of reference events of a `wiki-content` pass: one
`(display text, pending hyperlink target)` pair for every non-empty
text node processed while a target is pending, before any
deduplication.  This mirrors exactly the evolution of the loop's `ref`
variable (set by an opening anchor's `href`, cleared after every
non-empty text node). -/
def wikiRefEvents : List Tok → String → List (String × String)
  | [], _ => []
  | tok :: rest, ref =>
    let c := containsAttr tok.tagName tok.attrsOf wikiContentRules
    if c = "div" then
      match tok with
      | .endT _ => []
      | _ => wikiRefEvents rest ref
    else if c = "p" then wikiRefEvents rest ref
    else if c = "br" then wikiRefEvents rest ref
    else if c = "a" then
      match tok with
      | .start _ attrs =>
        wikiRefEvents rest
          (match attrs.find? (fun kv => kv.1 == "href") with
            | some kv => kv.2
            | none => ref)
      | _ => wikiRefEvents rest ref
    else
      match tok with
      | .text s =>
        if s = "" then wikiRefEvents rest ref
        else if ref ≠ "" then (s, ref) :: wikiRefEvents rest ""
        else wikiRefEvents rest ""
      | _ => wikiRefEvents rest ref

/-- First-occurrence deduplication of reference events against a seen
map: the retention policy of lines 596-600, factored out of the loop. -/
def dedupRefEvents (seen : List (String × String)) :
    List (String × String) → List Ref × List (String × String)
  | [] => ([], seen)
  | (s, r) :: rest =>
    if (seen.find? (fun kv => kv.1 == s)).isNone then
      ((⟨s, r⟩ : Ref) :: (dedupRefEvents (seen ++ [(s, r)]) rest).1,
        (dedupRefEvents (seen ++ [(s, r)]) rest).2)
    else dedupRefEvents seen rest

theorem flushBio_refs (acc : WikiAcc) :
    (flushBio acc).refs = acc.refs ∧ (flushBio acc).refsSeen = acc.refsSeen ∧
    (flushBio acc).ref = acc.ref := by
  unfold flushBio
  split <;> exact ⟨rfl, rfl, rfl⟩

theorem readWikiContentLoop_refs (fm : String → String) :
    ∀ (toks : List Tok) (acc : WikiAcc),
      (readWikiContentLoop fm toks acc).refs =
        acc.refs ++ (dedupRefEvents acc.refsSeen (wikiRefEvents toks acc.ref)).1 ∧
      (readWikiContentLoop fm toks acc).refsSeen =
        (dedupRefEvents acc.refsSeen (wikiRefEvents toks acc.ref)).2 := by
  intro toks
  induction toks with
  | nil =>
    intro acc
    simp [readWikiContentLoop, wikiRefEvents, dedupRefEvents]
  | cons tok rest ih =>
    intro acc
    simp only [readWikiContentLoop, wikiRefEvents]
    by_cases hdiv : containsAttr tok.tagName tok.attrsOf wikiContentRules = "div"
    · rw [if_pos hdiv, if_pos hdiv]
      match tok with
      | .endT n => simp [dedupRefEvents]
      | .start n a => exact ih acc
      | .text s => exact ih acc
    · rw [if_neg hdiv, if_neg hdiv]
      by_cases hp : containsAttr tok.tagName tok.attrsOf wikiContentRules = "p"
      · rw [if_pos hp, if_pos hp]
        match tok with
        | .endT n =>
          have hf := flushBio_refs acc
          have := ih (flushBio acc)
          rw [hf.1, hf.2.1, hf.2.2] at this
          exact this
        | .start n a => exact ih acc
        | .text s => exact ih acc
      · rw [if_neg hp, if_neg hp]
        by_cases hbr : containsAttr tok.tagName tok.attrsOf wikiContentRules = "br"
        · rw [if_pos hbr, if_pos hbr]
          exact ih { acc with br := true }
        · rw [if_neg hbr, if_neg hbr]
          by_cases ha : containsAttr tok.tagName tok.attrsOf wikiContentRules = "a"
          · rw [if_pos ha, if_pos ha]
            match tok with
            | .start n a => exact ih _
            | .endT n => exact ih acc
            | .text s => exact ih acc
          · rw [if_neg ha, if_neg ha]
            match tok with
            | .start n a => exact ih acc
            | .endT n => exact ih acc
            | .text s =>
              dsimp only
              by_cases hs : s = ""
              · rw [if_pos hs, if_pos hs]
                exact ih acc
              · rw [if_neg hs, if_neg hs]
                by_cases hr : acc.ref = ""
                · rw [if_neg (by simp [hr] : ¬ acc.ref ≠ "")]
                  have h2 := ih (textStep fm acc s)
                  simp only [textStep, hr, bne_self_eq_false, Bool.false_and,
                    if_false, Bool.false_eq_true] at h2 ⊢
                  exact h2
                · rw [if_pos hr]
                  have hbne : (acc.ref != "") = true := by
                    simpa [bne_iff_ne] using hr
                  by_cases hseen : (acc.refsSeen.find? (fun kv => kv.1 == s)).isNone = true
                  · have h2 := ih (textStep fm acc s)
                    simp only [textStep, hbne, hseen, Bool.true_and, if_true] at h2 ⊢
                    rw [dedupRefEvents, if_pos hseen]
                    refine ⟨?_, ?_⟩
                    · rw [h2.1]
                      simp [List.append_assoc]
                    · exact h2.2
                  · have h2 := ih (textStep fm acc s)
                    simp only [textStep, hbne, hseen, Bool.true_and, if_false,
                      Bool.false_eq_true] at h2 ⊢
                    rw [dedupRefEvents, if_neg hseen]
                    exact h2

theorem dedupRefEvents_filter_of_seen :
    ∀ (evs seen : List (String × String)) (t : String),
      (seen.find? (fun kv => kv.1 == t)).isNone = false →
      ((dedupRefEvents seen evs).1.filter (fun r => r.name == t)) = [] := by
  intro evs
  induction evs with
  | nil => intro seen t h; rfl
  | cons ev rest ih =>
    intro seen t h
    obtain ⟨s, r⟩ := ev
    rw [dedupRefEvents]
    by_cases hseen : (seen.find? (fun kv => kv.1 == s)).isNone = true
    · rw [if_pos hseen]
      have hst : (s == t) = false := by
        by_cases hq : s = t
        · exfalso
          rw [hq] at hseen
          rw [hseen] at h
          simp at h
        · simpa using hq
      simp only [List.filter_cons]
      have : (Ref.name ⟨s, r⟩ == t) = false := hst
      rw [this]
      apply ih
      rw [List.find?_append]
      have hfind2 : (([(s, r)] : List (String × String)).find? (fun kv => kv.1 == t)) = none := by
        simp [List.find?, hst]
      cases hfound : seen.find? (fun kv => kv.1 == t) with
      | some kv => simp [hfound]
      | none => rw [hfound] at h; simp at h
    · rw [if_neg hseen]
      exact ih seen t h

theorem dedupRefEvents_filter_first :
    ∀ (evs seen : List (String × String)) (t : String) (e : String × String),
      (seen.find? (fun kv => kv.1 == t)).isNone = true →
      evs.find? (fun ev => ev.1 == t) = some e →
      ((dedupRefEvents seen evs).1.filter (fun r => r.name == t)) = [⟨t, e.2⟩] := by
  intro evs
  induction evs with
  | nil => intro seen t e _ hfind; simp at hfind
  | cons ev rest ih =>
    intro seen t e hunseen hfind
    obtain ⟨s, r⟩ := ev
    rw [dedupRefEvents]
    by_cases hst : (s == t) = true
    · have hseq : s = t := by simpa [beq_iff_eq] using hst
      have he : e = (s, r) := by
        rw [List.find?_cons_of_pos _ (by simpa using hst)] at hfind
        exact (Option.some.injEq _ _ ▸ hfind.symm : _)
      subst hseq
      rw [if_pos hunseen]
      simp only [List.filter_cons]
      have : (Ref.name ⟨s, r⟩ == s) = true := by simp
      rw [this]
      have hrest : ((dedupRefEvents (seen ++ [(s, r)]) rest).1.filter
          (fun rf => rf.name == s)) = [] := by
        apply dedupRefEvents_filter_of_seen
        rw [List.find?_append]
        cases hfound : seen.find? (fun kv => kv.1 == s) with
        | some kv => simp [hfound]
        | none => simp [List.find?]
      rw [hrest]
      simp [he]
    · have hne : (s == t) = false := by simpa using hst
      have hfind' : rest.find? (fun ev => ev.1 == t) = some e := by
        rw [List.find?_cons_of_neg _ (by simpa using hst)] at hfind
        exact hfind
      by_cases hseen : (seen.find? (fun kv => kv.1 == s)).isNone = true
      · rw [if_pos hseen]
        simp only [List.filter_cons]
        have : (Ref.name ⟨s, r⟩ == t) = false := hne
        rw [this]
        apply ih
        · rw [List.find?_append]
          cases hfound : seen.find? (fun kv => kv.1 == t) with
          | some kv => rw [hfound] at hunseen; simp at hunseen
          | none => simp [List.find?, hne]
        · exact hfind'
      · rw [if_neg hseen]
        exact ih seen t e hunseen hfind'

/-! ### Claim C6 -/

/-- C6.  For every wiki-content token stream in which some anchor
display text occurs (with a pending hyperlink target) one or more
times — in particular more than once — the extractor records exactly
one `Ref` entry for that display text, and its reference target is the
target of the *first* occurrence (the first matching reference event);
every later occurrence with the same display text is silently dropped
from the refs list.  `wikiRefEvents` enumerates the occurrences in
document order, and the filter of the resulting refs list down to the
given display text is exactly the one entry built from the first
occurrence. -/
theorem C6_wiki_refs_first_occurrence (fm : String → String) (toks : List Tok)
    (t : String) (e : String × String)
    (hfind : (wikiRefEvents toks "").find? (fun ev => ev.1 == t) = some e) :
    ((readWikiContentLoop fm toks initWikiAcc).refs.filter (fun r => r.name == t)) =
      [⟨t, e.2⟩] := by
  have h := (readWikiContentLoop_refs fm toks initWikiAcc).1
  rw [show initWikiAcc.refs = [] from rfl] at h
  rw [h, List.nil_append]
  exact dedupRefEvents_filter_first _ _ t e rfl hfind

/-- C6, witness: the theorem applied to a page where the display text
`"Ian"` occurs twice with different hyperlink targets. -/
theorem C6_witness :
    ((readWikiContentLoop id
        [.start "a" [("href", "/music/X")], .text "Ian",
         .start "a" [("href", "/music/Y")], .text "Ian"] initWikiAcc).refs.filter
        (fun r => r.name == "Ian")) = [⟨"Ian", "/music/X"⟩] :=
  C6_wiki_refs_first_occurrence id _ "Ian" ("Ian", "/music/X") (by decide)

/-! ## Similar-artists page extractor (`readSimilarArtistsPage`, lastfmq.go lines 623-691) -/

/-- The token loop of `readSimilarArtistsPage` (lines 650-690): a
single ordered list recognized by the `similar-artists` class marker,
each contained `link-block-target` link contributing one artist name
in document order.  (The two redundant inner `if startSimilar` checks
at lines 663 and 674 re-test a condition that already guards the
branch.) -/
def readSimilarArtistsPageLoop : List Tok → List String → Bool → List String
  | [], similar, _ => similar
  | .endT name :: rest, similar, startSimilar =>
    if startSimilar then
      if containsAttr name [] [⟨"ol", "", []⟩] ≠ "" then
        readSimilarArtistsPageLoop rest similar false
      else readSimilarArtistsPageLoop rest similar startSimilar
    else readSimilarArtistsPageLoop rest similar startSimilar
  | .start name attrs :: rest, similar, startSimilar =>
    if startSimilar then
      if containsAttr name attrs [⟨"a", "class", ["link-block-target"]⟩] ≠ "" then
        match rest with
        | .text txt :: rest2 => readSimilarArtistsPageLoop rest2 (similar ++ [txt]) startSimilar
        | _ :: rest2 => readSimilarArtistsPageLoop rest2 similar startSimilar
        | [] => similar
      else readSimilarArtistsPageLoop rest similar startSimilar
    else
      if containsAttr name attrs [⟨"ol", "class", ["similar-artists"]⟩] ≠ "" then
        readSimilarArtistsPageLoop rest similar true
      else readSimilarArtistsPageLoop rest similar startSimilar
  | .text _ :: rest, similar, startSimilar =>
    readSimilarArtistsPageLoop rest similar startSimilar

/-- `readSimilarArtistsPage` (lastfmq.go lines 623-691).  The HTTP
fetch is an external collaborator; its observable inputs here are the
response status code, the resolved value of the `page` query parameter
of the served request (`resp.Request.URL.Query().Get("page")`, which
reflects any redirect) and the token stream of the body.  Before any
parsing, a resolved page number different from the requested one is
answered with `(nil, nil)` — the empty, non-error overflow signal
(lines 645-648). -/
def readSimilarArtistsPage (bandName : String) (status : Nat) (resolvedPage : String)
    (pageNum : Nat) (body : List Tok) : Except String (List String) :=
  if bandName = "" then
    .error ("read_similar_artists: page " ++ toString pageNum ++ ": band name is required")
  else if status ≠ 200 then
    .error ("read_similar_artists: status: " ++ toString status)
  else if resolvedPage ≠ toString pageNum then
    .ok []
  else
    .ok (readSimilarArtistsPageLoop body [] false)

/-! ## Sequential collector (`readSimilarArtists`, lastfmq.go lines 216-230) -/

/-- The `for i := 1 + offset; i <= pages+offset; i++` loop of
`readSimilarArtists`, with `n` the number of iterations left and `acc`
the accumulated result; a page error aborts with the wrapped error and
no partial result.  The per-page fetch+parse
(`readSimilarArtistsPage`) is abstracted as `fetch`. -/
def readSimilarArtistsGo (fetch : Nat → Except String (List String)) :
    Nat → Nat → List String → Except String (List String)
  | _, 0, acc => .ok acc
  | i, n + 1, acc =>
    match fetch i with
    | .error e => .error ("read_similar_artists: " ++ e)
    | .ok similar => readSimilarArtistsGo fetch (i + 1) n (acc ++ similar)

/-- `readSimilarArtists` (lastfmq.go lines 216-230). -/
def readSimilarArtists (fetch : Nat → Except String (List String))
    (pages offset : Nat) : Except String (List String) :=
  readSimilarArtistsGo fetch (1 + offset) pages []

/-- Modelled from the spec (section 4.6, sequential mode): the page
numbers `O+1 .. O+P` in increasing order. -/
def specSeqPages (pages offset : Nat) : List Nat :=
  (List.range pages).map (fun k => 1 + offset + k)

/-- Modelled from the spec (section 4.6, sequential mode): fetch the
listed pages in order, concatenating each page's artist list in fetch
order; the first page error aborts the whole operation and returns
that error with no partial result. -/
def specSeqCollect (fetch : Nat → Except String (List String)) :
    List Nat → Except String (List String)
  | [] => .ok []
  | p :: rest =>
    match fetch p with
    | .error e => .error ("read_similar_artists: " ++ e)
    | .ok similar => (specSeqCollect fetch rest).map (fun r => similar ++ r)

theorem readSimilarArtistsGo_spec (fetch : Nat → Except String (List String)) :
    ∀ (n i : Nat) (acc : List String),
      readSimilarArtistsGo fetch i n acc =
        (specSeqCollect fetch ((List.range n).map (fun k => i + k))).map
          (fun l => acc ++ l) := by
  intro n
  induction n with
  | zero =>
    intro i acc
    simp [readSimilarArtistsGo, specSeqCollect, Except.map]
  | succ n ih =>
    intro i acc
    have hfun : ((fun k => i + k) ∘ Nat.succ) = (fun k => (i + 1) + k) := by
      funext k
      simp only [Function.comp]
      omega
    have hrange : (List.range (n + 1)).map (fun k => i + k) =
        i :: (List.range n).map (fun k => (i + 1) + k) := by
      rw [List.range_succ_eq_map, List.map_cons, List.map_map, hfun]
      simp
    rw [hrange]
    simp only [readSimilarArtistsGo, specSeqCollect]
    cases hf : fetch i with
    | error e => dsimp only; simp [Except.map]
    | ok similar =>
      dsimp only
      rw [ih (i + 1) (acc ++ similar)]
      cases hrec : specSeqCollect fetch ((List.range n).map (fun k => (i + 1) + k)) with
      | error e => simp [Except.map]
      | ok l => simp [Except.map, List.append_assoc]

/-! ### Claim C9 -/

/-- C9.  Sequential collection with page count `P` and offset `O`
fetches exactly pages `O+1` through `O+P` in increasing order
(`specSeqPages`), returns the concatenation of each page's artist list
in fetch order, and if any single page's fetch or parse fails, the
whole operation aborts at the first failing page and returns that
(wrapped) error with no partial result — which is precisely the
behavior of the spec-side collector `specSeqCollect` over that page
list. -/
theorem C9_sequential_collection (fetch : Nat → Except String (List String))
    (pages offset : Nat) :
    readSimilarArtists fetch pages offset =
      specSeqCollect fetch (specSeqPages pages offset) := by
  rw [readSimilarArtists, specSeqPages,
    readSimilarArtistsGo_spec fetch pages (1 + offset) []]
  cases h : specSeqCollect fetch ((List.range pages).map (fun k => 1 + offset + k)) with
  | error e => simp [Except.map]
  | ok l => simp [Except.map]

/-! ## Concurrent collector (`readSimilarArtistsAsync`, lastfmq.go lines 141-214)

The worker pool is modelled by a small-step transition relation.  A
worker goroutine (lines 162-181) is in one of four statuses: about to
claim the next page number from the shared atomic counter, fetching a
claimed page, holding a fetched value it must hand off (a page result
over the unbuffered `outC`, or an error it is about to send to
`errC`), or returned.  `outC` is a rendezvous channel, so a page
result is held until the select loop receives it; `errC` is declared
`make(chan error, 1)` (line 155), a one-slot buffered channel, so an
error send completes as soon as the slot is free and the worker moves
on — the slot's content reaches the trace only when the select loop
performs a receive, and a run can complete with an error still
sitting undelivered in the slot.  The per-page fetch+parse
(`readSimilarArtistsPage`) is abstracted as `fetch`; the trace
records the values received by the select loop in delivery order. -/

/-- `pageSize` (lastfmq.go line 142). -/
def pageSize : Nat := 10

/-- One value delivered to the caller's select loop: a parsed page
over `outC` (`outValue{pageNum, similar}`) or an error over `errC`. -/
inductive AEvent
  | out (page : Nat) (artists : List String)
  | err (e : String)
deriving Repr, DecidableEq

/-- The status of one worker goroutine. -/
inductive WStatus
  | idle
  | working (page : Nat)
  | ready (ev : AEvent)
  | done
deriving Repr, DecidableEq

/-- Global state of a run: the shared atomic page counter (last value
handed out by `pageCount.Add(1)`), the worker statuses, the values
delivered to the select loop so far in delivery order, and the
content of the one-slot buffer of `errC` (line 155). -/
structure AState where
  counter : Nat
  workers : List WStatus
  trace : List AEvent
  errBuf : Option String
deriving Repr, DecidableEq

/-- At entry: counter 0, `workersNum` idle workers, nothing
delivered, the error slot empty. -/
def initAState (w : Nat) : AState :=
  ⟨0, List.replicate w .idle, [], none⟩

/-- One step of the concurrent system.  A worker is selected
nondeterministically by splitting the worker list.  `claimOk`/
`claimEnd` model `pageNum = int(pageCount.Add(1))` against the loop
bound `pageNum <= pages+offset` (line 166); `fetchErr` models a
failed fetch putting its worker in front of `errC <- err` (lines
169-170); `depositErr` completes that buffered send once the one
slot is free, after which the worker `continue`s to the claim loop
(lines 170-171); `recvErr` models the select loop receiving from
`errC`, draining the slot (lines 201-202); `fetchEmpty` models the
worker's `return` on an empty page (lines 174-176); `fetchOk` models
a non-empty page headed for the unbuffered `outC` (line 178); `send`
models the select loop receiving that page result (lines 203-205). -/
inductive AStep (fetch : Nat → Except String (List String)) (pages offset : Nat) :
    AState → AState → Prop
  | claimOk (c : Nat) (l1 l2 : List WStatus) (tr : List AEvent) (b : Option String) :
      c + 1 ≤ pages + offset →
      AStep fetch pages offset ⟨c, l1 ++ .idle :: l2, tr, b⟩
        ⟨c + 1, l1 ++ .working (c + 1) :: l2, tr, b⟩
  | claimEnd (c : Nat) (l1 l2 : List WStatus) (tr : List AEvent) (b : Option String) :
      pages + offset < c + 1 →
      AStep fetch pages offset ⟨c, l1 ++ .idle :: l2, tr, b⟩
        ⟨c + 1, l1 ++ .done :: l2, tr, b⟩
  | fetchErr (c p : Nat) (e : String) (l1 l2 : List WStatus) (tr : List AEvent)
      (b : Option String) :
      fetch p = .error e →
      AStep fetch pages offset ⟨c, l1 ++ .working p :: l2, tr, b⟩
        ⟨c, l1 ++ .ready (.err e) :: l2, tr, b⟩
  | depositErr (c : Nat) (e : String) (l1 l2 : List WStatus) (tr : List AEvent) :
      AStep fetch pages offset ⟨c, l1 ++ .ready (.err e) :: l2, tr, none⟩
        ⟨c, l1 ++ .idle :: l2, tr, some e⟩
  | recvErr (c : Nat) (ws : List WStatus) (tr : List AEvent) (e : String) :
      AStep fetch pages offset ⟨c, ws, tr, some e⟩
        ⟨c, ws, tr ++ [.err e], none⟩
  | fetchEmpty (c p : Nat) (l1 l2 : List WStatus) (tr : List AEvent) (b : Option String) :
      fetch p = .ok [] →
      AStep fetch pages offset ⟨c, l1 ++ .working p :: l2, tr, b⟩
        ⟨c, l1 ++ .done :: l2, tr, b⟩
  | fetchOk (c p : Nat) (as : List String) (l1 l2 : List WStatus) (tr : List AEvent)
      (b : Option String) :
      fetch p = .ok as → as ≠ [] →
      AStep fetch pages offset ⟨c, l1 ++ .working p :: l2, tr, b⟩
        ⟨c, l1 ++ .ready (.out p as) :: l2, tr, b⟩
  | send (c p : Nat) (as : List String) (l1 l2 : List WStatus) (tr : List AEvent)
      (b : Option String) :
      AStep fetch pages offset ⟨c, l1 ++ .ready (.out p as) :: l2, tr, b⟩
        ⟨c, l1 ++ .idle :: l2, tr ++ [.out p as], b⟩

/-- Reachability through worker-pool steps. -/
def AReaches (fetch : Nat → Except String (List String)) (pages offset : Nat) :
    AState → AState → Prop :=
  Relation.ReflTransGen (AStep fetch pages offset)

/-- A run is complete when every worker has returned: `wg.Wait()`
fires `doneC` and the select loop may break (lines 186-200).  Since
Go's `select` picks uniformly at random among ready cases, the loop
can break while `errC`'s slot still holds an undelivered error — a
complete state does not promise an empty slot. -/
def AFinal (s : AState) : Prop :=
  ∀ w ∈ s.workers, w = .done

/-- The state of the caller's select loop (lines 191-195): the
pre-sized result buffer, the total item count, and the errors
received in arrival order. -/
structure CollState where
  ret : List String
  retSize : Nat
  errs : List String
deriving Repr, DecidableEq

/-- `copy(ret[(val.page-1)*pageSize:val.page*pageSize], val.artists)`
(line 205), as a positional overwrite of the in-bounds part of the
destination window: position `i` of the buffer receives element
`i - (page-1)*pageSize` of the page when that element exists (at most
`pageSize` elements are copied), and keeps its old value otherwise.
The Go slice expression additionally requires
`page*pageSize ≤ len(ret)` — `copySliceBounds` below — or it panics. -/
def writePage (ret : List String) (p : Nat) (as : List String) : List String :=
  (List.range ret.length).map fun i =>
    if (p - 1) * pageSize ≤ i ∧ i < (p - 1) * pageSize + min pageSize as.length then
      as.getD (i - (p - 1) * pageSize) ""
    else ret.getD i ""

/-- One iteration of the select loop (lines 196-207): a page result
advances the merge buffer and the size, an error is appended to the
error list. -/
def collectStep (st : CollState) (ev : AEvent) : CollState :=
  match ev with
  | .out p as => ⟨writePage st.ret p as, st.retSize + as.length, st.errs⟩
  | .err e => ⟨st.ret, st.retSize, st.errs ++ [e]⟩

/-- The select loop of `readSimilarArtistsAsync` (lines 191-213) over
the delivered values: fold the events into the pre-sized buffer
(`make([]string, pageSize*pages)`, line 193), then return the first
recorded error (line 210) or the buffer truncated to the total item
count (`ret[:retSize]`, line 213). -/
def collectLoop (pages : Nat) (trace : List AEvent) : Except String (List String) :=
  let st := trace.foldl collectStep ⟨List.replicate (pageSize * pages) "", 0, []⟩
  match st.errs with
  | [] => .ok (st.ret.take st.retSize)
  | e :: _ => .error ("read_similar_artists: " ++ e)

/-- A page number a worker can claim: the shared counter hands out
`1, 2, ...` and the worker loop keeps a claimed number only while
`pageNum <= pages+offset` (line 166). -/
def claimablePage (pages offset p : Nat) : Prop :=
  1 ≤ p ∧ p ≤ pages + offset

/-- The bounds required by the Go slice expression
`ret[(page-1)*pageSize : page*pageSize]` on the buffer of length
`pageSize*pages` (line 205): low ≤ high and high ≤ length. -/
def copySliceBounds (pages p : Nat) : Prop :=
  (p - 1) * pageSize ≤ p * pageSize ∧ p * pageSize ≤ pageSize * pages

/-- The first error delivered to the select loop, if any
(`errs[0]`). -/
def firstErr (tr : List AEvent) : Option String :=
  tr.findSome? fun ev => match ev with | .err e => some e | _ => none

theorem collect_foldl_errs (tr : List AEvent) :
    ∀ (st : CollState),
      (tr.foldl collectStep st).errs =
        st.errs ++ tr.filterMap (fun ev => match ev with | .err e => some e | _ => none) := by
  induction tr with
  | nil => intro st; simp
  | cons ev rest ih =>
    intro st
    rw [List.foldl_cons, ih]
    cases ev with
    | out p as => simp [collectStep]
    | err e => simp [collectStep]

theorem firstErr_eq_head (tr : List AEvent) :
    firstErr tr =
      (tr.filterMap (fun ev => match ev with | .err e => some e | _ => none)).head? := by
  induction tr with
  | nil => rfl
  | cons ev rest ih =>
    cases ev with
    | out p as => simpa [firstErr, List.findSome?_cons] using ih
    | err e => simp [firstErr, List.findSome?_cons]

/-! ## Run invariant of the concurrent collector -/

/-- Whether a fetch result is a non-empty page (`len(similar) != 0`). -/
def okNonempty : Except String (List String) → Bool
  | .ok (_ :: _) => true
  | _ => false

/-- The page a worker is still due to deliver, if any: a claimed page
being fetched whose result will be non-empty, or a fetched non-empty
page waiting on the unbuffered `outC`. -/
def wPendingPage (fetch : Nat → Except String (List String)) : WStatus → Option Nat
  | .working p => if okNonempty (fetch p) then some p else none
  | .ready (.out p _) => some p
  | _ => none

/-- The page a worker currently holds (claimed or fetched). -/
def wPage : WStatus → Option Nat
  | .working p => some p
  | .ready (.out p _) => some p
  | _ => none

/-- The pages of the delivered page results, in delivery order. -/
def outPages (tr : List AEvent) : List Nat :=
  tr.filterMap fun ev => match ev with | .out p _ => some p | _ => none

/-- Indicator of the pages that a run with counter value `c` has
claimed and that produce a page result: `1 ≤ p ≤ c`, within the
claimable range, with a non-empty fetch. -/
def pageIndicator (fetch : Nat → Except String (List String))
    (pages offset c p : Nat) : Nat :=
  if (1 ≤ p ∧ p ≤ c ∧ p ≤ pages + offset) ∧ okNonempty (fetch p) = true then 1 else 0

/-- Run invariant: (1) the worker count is fixed; (2) every claimed,
in-range, non-empty page is accounted exactly once between the workers
still due to deliver it and the delivered trace; (3) pages held by
workers are claimed and in range; (4) a returned worker has witnessed
the end of the range or an empty page; (5) delivered page results
carry the fetch value of a claimed, in-range, non-empty page; (6-8)
held page results, errors held by workers, and delivered errors stem
from actual fetch outcomes; (9) an error sitting in `errC`'s one-slot
buffer stems from an actual failed fetch. -/
def AInv (fetch : Nat → Except String (List String))
    (pages offset W : Nat) (s : AState) : Prop :=
  s.workers.length = W ∧
  (∀ p, (s.workers.filterMap (wPendingPage fetch)).count p + (outPages s.trace).count p =
      pageIndicator fetch pages offset s.counter p) ∧
  (∀ w ∈ s.workers, ∀ p, wPage w = some p → 1 ≤ p ∧ p ≤ s.counter ∧ p ≤ pages + offset) ∧
  (∀ w ∈ s.workers, w = .done →
      ∃ p, 1 ≤ p ∧ p ≤ s.counter ∧ (pages + offset < p ∨ fetch p = .ok [])) ∧
  (∀ ev ∈ s.trace, ∀ p as, ev = .out p as →
      fetch p = .ok as ∧ as ≠ [] ∧ 1 ≤ p ∧ p ≤ s.counter ∧ p ≤ pages + offset) ∧
  (∀ w ∈ s.workers, ∀ p as, w = .ready (.out p as) → fetch p = .ok as ∧ as ≠ []) ∧
  (∀ w ∈ s.workers, ∀ e, w = .ready (.err e) → ∃ p, fetch p = .error e) ∧
  (∀ e, AEvent.err e ∈ s.trace → ∃ p, fetch p = .error e) ∧
  (∀ e, s.errBuf = some e → ∃ p, fetch p = .error e)

theorem count_filterMap_split {α : Type} (f : α → Option Nat) (l1 l2 : List α)
    (w : α) (p : Nat) :
    ((l1 ++ w :: l2).filterMap f).count p =
      ((l1 ++ l2).filterMap f).count p +
        (match f w with | some q => if q = p then 1 else 0 | none => 0) := by
  rw [List.filterMap_append, List.filterMap_cons, List.filterMap_append]
  cases hfw : f w with
  | none => simp [List.count_append]
  | some q =>
    by_cases hq : q = p
    · simp [List.count_append, List.count_cons, hq]
      omega
    · simp [List.count_append, List.count_cons, hq]

theorem outPages_append_out (tr : List AEvent) (p : Nat) (as : List String) :
    outPages (tr ++ [.out p as]) = outPages tr ++ [p] := by
  simp [outPages]

theorem outPages_append_err (tr : List AEvent) (e : String) :
    outPages (tr ++ [.err e]) = outPages tr := by
  simp [outPages]

theorem mem_of_mem_sides {α : Type} (wOld : α) {w wNew : α} {l1 l2 : List α}
    (h : w ∈ l1 ++ wNew :: l2) : w = wNew ∨ w ∈ l1 ++ wOld :: l2 := by
  simp only [List.mem_append, List.mem_cons] at h ⊢
  tauto

/-- The number a worker status adds to the count of page `p` among the
pages still due for delivery. -/
def wPendContrib (fetch : Nat → Except String (List String)) (w : WStatus) (p : Nat) : Nat :=
  match wPendingPage fetch w with
  | some q => if q = p then 1 else 0
  | none => 0

theorem count_workers_split (fetch : Nat → Except String (List String))
    (l1 l2 : List WStatus) (w : WStatus) (p : Nat) :
    ((l1 ++ w :: l2).filterMap (wPendingPage fetch)).count p =
      ((l1 ++ l2).filterMap (wPendingPage fetch)).count p + wPendContrib fetch w p := by
  rw [count_filterMap_split]
  rfl

theorem wPendContrib_idle (fetch : Nat → Except String (List String)) (p : Nat) :
    wPendContrib fetch .idle p = 0 := rfl

theorem wPendContrib_done (fetch : Nat → Except String (List String)) (p : Nat) :
    wPendContrib fetch .done p = 0 := rfl

theorem wPendContrib_ready_err (fetch : Nat → Except String (List String))
    (e : String) (p : Nat) :
    wPendContrib fetch (.ready (.err e)) p = 0 := rfl

theorem wPendContrib_ready_out (fetch : Nat → Except String (List String))
    (q : Nat) (as : List String) (p : Nat) :
    wPendContrib fetch (.ready (.out q as)) p = if q = p then 1 else 0 := rfl

theorem wPendContrib_working (fetch : Nat → Except String (List String)) (q p : Nat) :
    wPendContrib fetch (.working q) p =
      if okNonempty (fetch q) = true ∧ q = p then 1 else 0 := by
  simp only [wPendContrib, wPendingPage]
  by_cases hqp : q = p
  · subst hqp
    by_cases hok : okNonempty (fetch q) = true
    · rw [if_pos hok]
      simp [hok]
    · rw [if_neg hok]
      simp [hok]
  · by_cases hok : okNonempty (fetch q) = true
    · rw [if_pos hok]
      simp [hqp, hok]
    · rw [if_neg hok]
      simp [hok]

theorem count_append_one (l : List Nat) (q p : Nat) :
    (l ++ [q]).count p = l.count p + (if q = p then 1 else 0) := by
  by_cases hq : q = p <;> simp [List.count_append, List.count_cons, hq]

theorem pageIndicator_counter_succ_ne (fetch : Nat → Except String (List String))
    (pages offset c p : Nat) (hne : p ≠ c + 1) :
    pageIndicator fetch pages offset (c + 1) p = pageIndicator fetch pages offset c p := by
  unfold pageIndicator
  by_cases h : (1 ≤ p ∧ p ≤ c ∧ p ≤ pages + offset) ∧ okNonempty (fetch p) = true
  · rw [if_pos h, if_pos ⟨⟨h.1.1, by omega, h.1.2.2⟩, h.2⟩]
  · rw [if_neg h, if_neg (fun hc => h ⟨⟨hc.1.1, by omega, hc.1.2.2⟩, hc.2⟩)]

theorem pageIndicator_at_claim (fetch : Nat → Except String (List String))
    (pages offset c : Nat) (hle : c + 1 ≤ pages + offset) :
    pageIndicator fetch pages offset (c + 1) (c + 1) =
      if okNonempty (fetch (c + 1)) = true then 1 else 0 := by
  unfold pageIndicator
  by_cases hok : okNonempty (fetch (c + 1)) = true
  · rw [if_pos ⟨⟨by omega, le_refl _, hle⟩, hok⟩, if_pos hok]
  · rw [if_neg (fun hc => hok hc.2), if_neg hok]

theorem pageIndicator_overflow (fetch : Nat → Except String (List String))
    (pages offset c : Nat) (hgt : pages + offset < c + 1) :
    pageIndicator fetch pages offset (c + 1) (c + 1) = 0 := by
  unfold pageIndicator
  rw [if_neg]
  rintro ⟨⟨-, -, h3⟩, -⟩
  omega

theorem AInv_step {fetch : Nat → Except String (List String)} {pages offset W : Nat}
    {s s' : AState} (hstep : AStep fetch pages offset s s')
    (hinv : AInv fetch pages offset W s) : AInv fetch pages offset W s' := by
  obtain ⟨hlen, hcount, hpage, hdone, htrace, hready, herrw, herrt, herrb⟩ := hinv
  cases hstep with
  | claimOk c l1 l2 tr b hle =>
    dsimp only [AInv] at hlen hcount hpage hdone htrace hready herrw herrt herrb ⊢
    refine ⟨?_, ?_, ?_, ?_, ?_, ?_, ?_, ?_, ?_⟩
    · have h0 : (l1 ++ WStatus.idle :: l2).length = W := hlen
      simp only [List.length_append, List.length_cons] at h0 ⊢
      exact h0
    · intro p
      have hold : ((l1 ++ WStatus.idle :: l2).filterMap (wPendingPage fetch)).count p +
          (outPages tr).count p = pageIndicator fetch pages offset c p := hcount p
      show ((l1 ++ WStatus.working (c + 1) :: l2).filterMap (wPendingPage fetch)).count p +
          (outPages tr).count p = pageIndicator fetch pages offset (c + 1) p
      rw [count_workers_split, wPendContrib_idle] at hold
      rw [count_workers_split, wPendContrib_working]
      by_cases hp : p = c + 1
      · subst hp
        rw [pageIndicator_at_claim fetch pages offset c hle]
        have hIndOld : pageIndicator fetch pages offset c (c + 1) = 0 := by
          unfold pageIndicator
          rw [if_neg]
          rintro ⟨⟨-, h2, -⟩, -⟩
          omega
        rw [hIndOld] at hold
        by_cases hok : okNonempty (fetch (c + 1)) = true
        · rw [if_pos ⟨hok, rfl⟩, if_pos hok]
          omega
        · rw [if_neg (fun hc => hok hc.1), if_neg hok]
          omega
      · rw [pageIndicator_counter_succ_ne fetch pages offset c p hp]
        rw [if_neg (fun hc => hp hc.2.symm)]
        omega
    · intro w hw p hwp
      rcases mem_of_mem_sides WStatus.idle hw with rfl | hold
      · have hp : c + 1 = p := by simpa [wPage] using hwp
        subst hp
        exact ⟨by omega, le_refl _, hle⟩
      · have hb := hpage w hold p hwp
        exact ⟨hb.1, by omega, hb.2.2⟩
    · intro w hw hdw
      rcases mem_of_mem_sides WStatus.idle hw with rfl | hold
      · simp at hdw
      · obtain ⟨p, hp⟩ := hdone w hold hdw
        exact ⟨p, hp.1, by omega, hp.2.2⟩
    · intro ev hev p as heq
      have h5 := htrace ev hev p as heq
      exact ⟨h5.1, h5.2.1, h5.2.2.1, by omega, h5.2.2.2.2⟩
    · intro w hw p as heq
      rcases mem_of_mem_sides WStatus.idle hw with rfl | hold
      · simp at heq
      · exact hready w hold p as heq

    · intro w hw e heq
      rcases mem_of_mem_sides WStatus.idle hw with rfl | hold
      · simp at heq
      · exact herrw w hold e heq
    · exact herrt
    · exact herrb
  | claimEnd c l1 l2 tr b hgt =>
    dsimp only [AInv] at hlen hcount hpage hdone htrace hready herrw herrt herrb ⊢
    refine ⟨?_, ?_, ?_, ?_, ?_, ?_, ?_, ?_, ?_⟩
    · have h0 : (l1 ++ WStatus.idle :: l2).length = W := hlen
      simp only [List.length_append, List.length_cons] at h0 ⊢
      exact h0
    · intro p
      have hold : ((l1 ++ WStatus.idle :: l2).filterMap (wPendingPage fetch)).count p +
          (outPages tr).count p = pageIndicator fetch pages offset c p := hcount p
      show ((l1 ++ WStatus.done :: l2).filterMap (wPendingPage fetch)).count p +
          (outPages tr).count p = pageIndicator fetch pages offset (c + 1) p
      rw [count_workers_split, wPendContrib_idle] at hold
      rw [count_workers_split, wPendContrib_done]
      by_cases hp : p = c + 1
      · subst hp
        rw [pageIndicator_overflow fetch pages offset c hgt]
        have hIndOld : pageIndicator fetch pages offset c (c + 1) = 0 := by
          unfold pageIndicator
          rw [if_neg]
          rintro ⟨⟨-, h2, -⟩, -⟩
          omega
        rw [hIndOld] at hold
        omega
      · rw [pageIndicator_counter_succ_ne fetch pages offset c p hp]
        omega
    · intro w hw p hwp
      rcases mem_of_mem_sides WStatus.idle hw with rfl | hold
      · simp [wPage] at hwp
      · have hb := hpage w hold p hwp
        exact ⟨hb.1, by omega, hb.2.2⟩
    · intro w hw hdw
      rcases mem_of_mem_sides WStatus.idle hw with rfl | hold
      · exact ⟨c + 1, by omega, le_refl _, Or.inl hgt⟩
      · obtain ⟨p, hp⟩ := hdone w hold hdw
        exact ⟨p, hp.1, by omega, hp.2.2⟩
    · intro ev hev p as heq
      have h5 := htrace ev hev p as heq
      exact ⟨h5.1, h5.2.1, h5.2.2.1, by omega, h5.2.2.2.2⟩
    · intro w hw p as heq
      rcases mem_of_mem_sides WStatus.idle hw with rfl | hold
      · simp at heq
      · exact hready w hold p as heq

    · intro w hw e heq
      rcases mem_of_mem_sides WStatus.idle hw with rfl | hold
      · simp at heq
      · exact herrw w hold e heq
    · exact herrt
    · exact herrb
  | fetchErr c p0 e l1 l2 tr b hfe =>
    dsimp only [AInv] at hlen hcount hpage hdone htrace hready herrw herrt herrb ⊢
    have hok0 : okNonempty (fetch p0) = false := by rw [hfe]; rfl
    refine ⟨?_, ?_, ?_, ?_, ?_, ?_, ?_, ?_, ?_⟩
    · have h0 : (l1 ++ WStatus.working p0 :: l2).length = W := hlen
      simp only [List.length_append, List.length_cons] at h0 ⊢
      exact h0
    · intro p
      have hold : ((l1 ++ WStatus.working p0 :: l2).filterMap (wPendingPage fetch)).count p +
          (outPages tr).count p = pageIndicator fetch pages offset c p := hcount p
      show ((l1 ++ WStatus.ready (.err e) :: l2).filterMap (wPendingPage fetch)).count p +
          (outPages tr).count p = pageIndicator fetch pages offset c p
      rw [count_workers_split, wPendContrib_working,
        if_neg (fun hc => by rw [hok0] at hc; exact Bool.false_ne_true hc.1)] at hold
      rw [count_workers_split, wPendContrib_ready_err]
      omega
    · intro w hw p hwp
      rcases mem_of_mem_sides (WStatus.working p0) hw with rfl | hold
      · simp [wPage] at hwp
      · exact hpage w hold p hwp
    · intro w hw hdw
      rcases mem_of_mem_sides (WStatus.working p0) hw with rfl | hold
      · simp at hdw
      · exact hdone w hold hdw
    · exact htrace
    · intro w hw p as heq
      rcases mem_of_mem_sides (WStatus.working p0) hw with rfl | hold
      · simp at heq
      · exact hready w hold p as heq

    · intro w hw e2 heq
      rcases mem_of_mem_sides (WStatus.working p0) hw with rfl | hold
      · cases heq
        exact ⟨p0, hfe⟩
      · exact herrw w hold e2 heq
    · exact herrt
    · exact herrb
  | fetchEmpty c p0 l1 l2 tr b hfe =>
    dsimp only [AInv] at hlen hcount hpage hdone htrace hready herrw herrt herrb ⊢
    have hok0 : okNonempty (fetch p0) = false := by rw [hfe]; rfl
    have hmem : WStatus.working p0 ∈ l1 ++ WStatus.working p0 :: l2 :=
      List.mem_append_right l1 (List.mem_cons_self _ _)
    have hb0 := hpage (WStatus.working p0) hmem p0 (by simp [wPage])
    refine ⟨?_, ?_, ?_, ?_, ?_, ?_, ?_, ?_, ?_⟩
    · have h0 : (l1 ++ WStatus.working p0 :: l2).length = W := hlen
      simp only [List.length_append, List.length_cons] at h0 ⊢
      exact h0
    · intro p
      have hold : ((l1 ++ WStatus.working p0 :: l2).filterMap (wPendingPage fetch)).count p +
          (outPages tr).count p = pageIndicator fetch pages offset c p := hcount p
      show ((l1 ++ WStatus.done :: l2).filterMap (wPendingPage fetch)).count p +
          (outPages tr).count p = pageIndicator fetch pages offset c p
      rw [count_workers_split, wPendContrib_working,
        if_neg (fun hc => by rw [hok0] at hc; exact Bool.false_ne_true hc.1)] at hold
      rw [count_workers_split, wPendContrib_done]
      omega
    · intro w hw p hwp
      rcases mem_of_mem_sides (WStatus.working p0) hw with rfl | hold
      · simp [wPage] at hwp
      · exact hpage w hold p hwp
    · intro w hw hdw
      rcases mem_of_mem_sides (WStatus.working p0) hw with rfl | hold
      · exact ⟨p0, hb0.1, hb0.2.1, Or.inr hfe⟩
      · exact hdone w hold hdw
    · exact htrace
    · intro w hw p as heq
      rcases mem_of_mem_sides (WStatus.working p0) hw with rfl | hold
      · simp at heq
      · exact hready w hold p as heq

    · intro w hw e heq
      rcases mem_of_mem_sides (WStatus.working p0) hw with rfl | hold
      · simp at heq
      · exact herrw w hold e heq
    · exact herrt
    · exact herrb
  | fetchOk c p0 as0 l1 l2 tr b hfo hne =>
    dsimp only [AInv] at hlen hcount hpage hdone htrace hready herrw herrt herrb ⊢
    have hok0 : okNonempty (fetch p0) = true := by
      rw [hfo]
      cases as0 with
      | nil => exact absurd rfl hne
      | cons a rest => rfl
    have hmem : WStatus.working p0 ∈ l1 ++ WStatus.working p0 :: l2 :=
      List.mem_append_right l1 (List.mem_cons_self _ _)
    have hb0 := hpage (WStatus.working p0) hmem p0 (by simp [wPage])
    refine ⟨?_, ?_, ?_, ?_, ?_, ?_, ?_, ?_, ?_⟩
    · have h0 : (l1 ++ WStatus.working p0 :: l2).length = W := hlen
      simp only [List.length_append, List.length_cons] at h0 ⊢
      exact h0
    · intro p
      have hold : ((l1 ++ WStatus.working p0 :: l2).filterMap (wPendingPage fetch)).count p +
          (outPages tr).count p = pageIndicator fetch pages offset c p := hcount p
      show ((l1 ++ WStatus.ready (.out p0 as0) :: l2).filterMap (wPendingPage fetch)).count p +
          (outPages tr).count p = pageIndicator fetch pages offset c p
      rw [count_workers_split, wPendContrib_working] at hold
      rw [count_workers_split, wPendContrib_ready_out]
      by_cases hp : p0 = p
      · rw [if_pos ⟨hok0, hp⟩] at hold
        rw [if_pos hp]
        omega
      · rw [if_neg (fun hc => hp hc.2)] at hold
        rw [if_neg hp]
        omega
    · intro w hw p hwp
      rcases mem_of_mem_sides (WStatus.working p0) hw with rfl | hold
      · have hp : p0 = p := by simpa [wPage] using hwp
        subst hp
        exact hb0
      · exact hpage w hold p hwp
    · intro w hw hdw
      rcases mem_of_mem_sides (WStatus.working p0) hw with rfl | hold
      · simp at hdw
      · exact hdone w hold hdw
    · exact htrace
    · intro w hw p as heq
      rcases mem_of_mem_sides (WStatus.working p0) hw with rfl | hold
      · cases heq
        exact ⟨hfo, hne⟩
      · exact hready w hold p as heq

    · intro w hw e heq
      rcases mem_of_mem_sides (WStatus.working p0) hw with rfl | hold
      · simp at heq
      · exact herrw w hold e heq
    · exact herrt
    · exact herrb
  | depositErr c e l1 l2 tr =>
    dsimp only [AInv] at hlen hcount hpage hdone htrace hready herrw herrt herrb ⊢
    have hmem : WStatus.ready (.err e) ∈ l1 ++ WStatus.ready (.err e) :: l2 :=
      List.mem_append_right l1 (List.mem_cons_self _ _)
    refine ⟨?_, ?_, ?_, ?_, ?_, ?_, ?_, ?_, ?_⟩
    · have h0 : (l1 ++ WStatus.ready (.err e) :: l2).length = W := hlen
      simp only [List.length_append, List.length_cons] at h0 ⊢
      exact h0
    · intro p
      have hold : ((l1 ++ WStatus.ready (.err e) :: l2).filterMap
            (wPendingPage fetch)).count p +
          (outPages tr).count p = pageIndicator fetch pages offset c p := hcount p
      show ((l1 ++ WStatus.idle :: l2).filterMap (wPendingPage fetch)).count p +
          (outPages tr).count p = pageIndicator fetch pages offset c p
      rw [count_workers_split, wPendContrib_ready_err] at hold
      rw [count_workers_split, wPendContrib_idle]
      omega
    · intro w hw p hwp
      rcases mem_of_mem_sides (WStatus.ready (.err e)) hw with rfl | hold
      · simp [wPage] at hwp
      · exact hpage w hold p hwp
    · intro w hw hdw
      rcases mem_of_mem_sides (WStatus.ready (.err e)) hw with rfl | hold
      · simp at hdw
      · exact hdone w hold hdw
    · exact htrace
    · intro w hw p as heq
      rcases mem_of_mem_sides (WStatus.ready (.err e)) hw with rfl | hold
      · simp at heq
      · exact hready w hold p as heq
    · intro w hw e2 heq
      rcases mem_of_mem_sides (WStatus.ready (.err e)) hw with rfl | hold
      · simp at heq
      · exact herrw w hold e2 heq
    · exact herrt
    · intro e2 heq
      have he2 : e = e2 := by simpa using heq
      subst he2
      exact herrw (WStatus.ready (.err e)) hmem e rfl
  | recvErr c ws tr e =>
    dsimp only [AInv] at hlen hcount hpage hdone htrace hready herrw herrt herrb ⊢
    refine ⟨hlen, ?_, hpage, hdone, ?_, hready, herrw, ?_, ?_⟩
    · intro p
      rw [outPages_append_err]
      exact hcount p
    · intro ev hev p as heq
      rcases List.mem_append.mp hev with hin | hone
      · exact htrace ev hin p as heq
      · have hev2 : ev = AEvent.err e := by simpa using hone
        rw [hev2] at heq
        simp at heq
    · intro e2 hetr
      rcases List.mem_append.mp hetr with hin | hone
      · exact herrt e2 hin
      · have he2 : e2 = e := by simpa using hone
        subst he2
        exact herrb _ rfl
    · intro e2 heq
      simp at heq
  | send c p0 as0 l1 l2 tr b =>
    dsimp only [AInv] at hlen hcount hpage hdone htrace hready herrw herrt herrb ⊢
    have hmem : WStatus.ready (.out p0 as0) ∈ l1 ++ WStatus.ready (.out p0 as0) :: l2 :=
      List.mem_append_right l1 (List.mem_cons_self _ _)
    refine ⟨?_, ?_, ?_, ?_, ?_, ?_, ?_, ?_, ?_⟩
    · have h0 : (l1 ++ WStatus.ready (.out p0 as0) :: l2).length = W := hlen
      simp only [List.length_append, List.length_cons] at h0 ⊢
      exact h0
    · intro p
      have hold : ((l1 ++ WStatus.ready (.out p0 as0) :: l2).filterMap
            (wPendingPage fetch)).count p +
          (outPages tr).count p = pageIndicator fetch pages offset c p := hcount p
      show ((l1 ++ WStatus.idle :: l2).filterMap (wPendingPage fetch)).count p +
          (outPages (tr ++ [.out p0 as0])).count p = pageIndicator fetch pages offset c p
      rw [count_workers_split, wPendContrib_idle]
      rw [count_workers_split, wPendContrib_ready_out] at hold
      rw [outPages_append_out, count_append_one]
      omega
    · intro w hw p hwp
      rcases mem_of_mem_sides (WStatus.ready (.out p0 as0)) hw with rfl | hold
      · simp [wPage] at hwp
      · exact hpage w hold p hwp
    · intro w hw hdw
      rcases mem_of_mem_sides (WStatus.ready (.out p0 as0)) hw with rfl | hold
      · simp at hdw
      · exact hdone w hold hdw
    · intro ev' hev' p as heq
      rcases List.mem_append.mp hev' with hin | hone
      · exact htrace ev' hin p as heq
      · have hev : ev' = AEvent.out p0 as0 := by simpa using hone
        subst hev
        have hpas : p0 = p ∧ as0 = as := by
          simpa only [AEvent.out.injEq] using heq
        have h6 := hready (WStatus.ready (.out p0 as0)) hmem p0 as0 rfl
        have hb := hpage (WStatus.ready (.out p0 as0)) hmem p0 (by simp [wPage])
        rw [← hpas.1, ← hpas.2]
        exact ⟨h6.1, h6.2, hb.1, hb.2.1, hb.2.2⟩
    · intro w hw p as heq
      rcases mem_of_mem_sides (WStatus.ready (.out p0 as0)) hw with rfl | hold
      · simp at heq
      · exact hready w hold p as heq
    · intro w hw e heq
      rcases mem_of_mem_sides (WStatus.ready (.out p0 as0)) hw with rfl | hold
      · simp at heq
      · exact herrw w hold e heq
    · intro e hetr
      rcases List.mem_append.mp hetr with hin | hone
      · exact herrt e hin
      · have hev : AEvent.err e = AEvent.out p0 as0 := by simpa using hone
        simp at hev
    · exact herrb

theorem filterMap_wPending_replicate_idle (fetch : Nat → Except String (List String))
    (W : Nat) :
    (List.replicate W WStatus.idle).filterMap (wPendingPage fetch) = [] := by
  induction W with
  | zero => rfl
  | succ n ih => simp only [List.replicate_succ, List.filterMap_cons, wPendingPage, ih]

theorem AInv_init (fetch : Nat → Except String (List String)) (pages offset W : Nat) :
    AInv fetch pages offset W (initAState W) := by
  refine ⟨by simp [initAState], ?_, ?_, ?_, ?_, ?_, ?_, ?_, ?_⟩
  · intro p
    show ((List.replicate W WStatus.idle).filterMap (wPendingPage fetch)).count p +
        (outPages []).count p = pageIndicator fetch pages offset 0 p
    rw [filterMap_wPending_replicate_idle]
    have hind : pageIndicator fetch pages offset 0 p = 0 := by
      unfold pageIndicator
      rw [if_neg]
      rintro ⟨⟨h1, h2, -⟩, -⟩
      omega
    rw [hind]
    simp [outPages]
  · intro w hw p hwp
    have hidle : w = WStatus.idle := List.eq_of_mem_replicate hw
    subst hidle
    simp [wPage] at hwp
  · intro w hw hdw
    have hidle : w = WStatus.idle := List.eq_of_mem_replicate hw
    subst hidle
    simp at hdw
  · intro ev hev p as heq
    simp [initAState] at hev
  · intro w hw p as heq
    have hidle : w = WStatus.idle := List.eq_of_mem_replicate hw
    subst hidle
    simp at heq
  · intro w hw e heq
    have hidle : w = WStatus.idle := List.eq_of_mem_replicate hw
    subst hidle
    simp at heq
  · intro e hetr
    simp [initAState] at hetr
  · intro e heq
    simp [initAState] at heq

theorem AInv_reaches {fetch : Nat → Except String (List String)}
    {pages offset W : Nat} {s : AState}
    (h : AReaches fetch pages offset (initAState W) s) :
    AInv fetch pages offset W s := by
  induction h with
  | refl => exact AInv_init fetch pages offset W
  | tail hsteps hstep ih => exact AInv_step hstep ih

theorem getElem?_middle_done {l1 l2 : List WStatus} {w : WStatus} (w' : WStatus)
    (hw : w ≠ .done) (i : Nat)
    (hd : (l1 ++ w :: l2)[i]? = some .done) : (l1 ++ w' :: l2)[i]? = some .done := by
  by_cases hi : i < l1.length
  · rw [List.getElem?_append_left hi] at hd ⊢
    exact hd
  · rw [List.getElem?_append_right (le_of_not_lt hi)] at hd ⊢
    cases h3 : i - l1.length with
    | zero =>
      rw [h3] at hd
      simp only [List.getElem?_cons_zero, Option.some.injEq] at hd
      exact absurd hd hw
    | succ n =>
      rw [h3] at hd
      simpa using hd

theorem AStep_done_persists {fetch : Nat → Except String (List String)}
    {pages offset : Nat} {s s' : AState} (h : AStep fetch pages offset s s')
    (i : Nat) (hd : s.workers[i]? = some .done) : s'.workers[i]? = some .done := by
  cases h with
  | claimOk c l1 l2 tr b hle => exact getElem?_middle_done _ (by simp) i hd
  | claimEnd c l1 l2 tr b hgt => exact getElem?_middle_done _ (by simp) i hd
  | fetchErr c p e l1 l2 tr b hfe => exact getElem?_middle_done _ (by simp) i hd
  | depositErr c e l1 l2 tr => exact getElem?_middle_done _ (by simp) i hd
  | recvErr c ws tr e => exact hd
  | fetchEmpty c p l1 l2 tr b hfe => exact getElem?_middle_done _ (by simp) i hd
  | fetchOk c p as l1 l2 tr b hfo hne => exact getElem?_middle_done _ (by simp) i hd
  | send c p as l1 l2 tr b => exact getElem?_middle_done _ (by simp) i hd

/-! ### Claim C2 -/

theorem firstErr_mem (tr : List AEvent) (e : String) (h : firstErr tr = some e) :
    AEvent.err e ∈ tr := by
  rw [firstErr_eq_head] at h
  cases hfm : tr.filterMap (fun ev => match ev with | .err e => some e | _ => none) with
  | nil => rw [hfm] at h; simp at h
  | cons e0 rest =>
    rw [hfm] at h
    simp only [List.head?_cons, Option.some.injEq] at h
    subst h
    have hmem : e0 ∈ tr.filterMap
        (fun ev => match ev with | .err e => some e | _ => none) := by
      rw [hfm]
      exact List.mem_cons_self _ _
    obtain ⟨ev, hev, hval⟩ := List.mem_filterMap.mp hmem
    cases ev with
    | out p as => simp at hval
    | err e2 =>
      have he2 : e2 = e0 := by simpa using hval
      subst he2
      exact hev

/-- C2, counterexample.  The claim asserts that *every* run in which a
page fetch fails returns a nil result with the first error.  But
`errC` is a one-slot buffered channel (`make(chan error, 1)`, line
155): in this one-worker run over `P = 2` pages, page 1 is fetched
(`["a"]`) and delivered, page 2's fetch fails, the worker deposits the
error in the slot without blocking and `continue`s (lines 170-171),
claims past the range and returns.  `wg.Wait` then fires `doneC` with
the error still undelivered, and since Go's `select` picks uniformly
at random among ready cases, the loop can break right there: `errs`
stays empty and the call returns `(["a"], nil)` — partial data and a
nil error despite the failed fetch. -/
theorem C2_counterexample :
    (fun p : Nat => if p = 1 then Except.ok ["a"] else Except.error "boom") 2 =
      (.error "boom" : Except String (List String)) ∧
    AReaches (fun p => if p = 1 then Except.ok ["a"] else Except.error "boom") 2 0
        (initAState 1) ⟨3, [.done], [.out 1 ["a"]], some "boom"⟩ ∧
    AFinal ⟨3, [.done], [.out 1 ["a"]], some "boom"⟩ ∧
    collectLoop 2 (AState.trace ⟨3, [.done], [.out 1 ["a"]], some "boom"⟩) =
      .ok ["a"] := by
  refine ⟨rfl, ?_, ?_, ?_⟩
  · have s1 : AStep (fun p => if p = 1 then Except.ok ["a"] else Except.error "boom") 2 0
        ⟨0, [] ++ .idle :: [], [], none⟩ ⟨1, [] ++ .working 1 :: [], [], none⟩ :=
      AStep.claimOk 0 [] [] [] none (by omega)
    have s2 : AStep (fun p => if p = 1 then Except.ok ["a"] else Except.error "boom") 2 0
        ⟨1, [] ++ .working 1 :: [], [], none⟩
        ⟨1, [] ++ .ready (.out 1 ["a"]) :: [], [], none⟩ :=
      AStep.fetchOk 1 1 ["a"] [] [] [] none rfl (by simp)
    have s3 : AStep (fun p => if p = 1 then Except.ok ["a"] else Except.error "boom") 2 0
        ⟨1, [] ++ .ready (.out 1 ["a"]) :: [], [], none⟩
        ⟨1, [] ++ .idle :: [], [] ++ [.out 1 ["a"]], none⟩ :=
      AStep.send 1 1 ["a"] [] [] [] none
    have s4 : AStep (fun p => if p = 1 then Except.ok ["a"] else Except.error "boom") 2 0
        ⟨1, [] ++ .idle :: [], [.out 1 ["a"]], none⟩
        ⟨2, [] ++ .working 2 :: [], [.out 1 ["a"]], none⟩ :=
      AStep.claimOk 1 [] [] _ none (by omega)
    have s5 : AStep (fun p => if p = 1 then Except.ok ["a"] else Except.error "boom") 2 0
        ⟨2, [] ++ .working 2 :: [], [.out 1 ["a"]], none⟩
        ⟨2, [] ++ .ready (.err "boom") :: [], [.out 1 ["a"]], none⟩ :=
      AStep.fetchErr 2 2 "boom" [] [] _ none rfl
    have s6 : AStep (fun p => if p = 1 then Except.ok ["a"] else Except.error "boom") 2 0
        ⟨2, [] ++ .ready (.err "boom") :: [], [.out 1 ["a"]], none⟩
        ⟨2, [] ++ .idle :: [], [.out 1 ["a"]], some "boom"⟩ :=
      AStep.depositErr 2 "boom" [] [] _
    have s7 : AStep (fun p => if p = 1 then Except.ok ["a"] else Except.error "boom") 2 0
        ⟨2, [] ++ .idle :: [], [.out 1 ["a"]], some "boom"⟩
        ⟨3, [] ++ .done :: [], [.out 1 ["a"]], some "boom"⟩ :=
      AStep.claimEnd 2 [] [] _ (some "boom") (by omega)
    exact Relation.ReflTransGen.head s1 (Relation.ReflTransGen.head s2
      (Relation.ReflTransGen.head s3 (Relation.ReflTransGen.head s4
        (Relation.ReflTransGen.head s5 (Relation.ReflTransGen.head s6
          (Relation.ReflTransGen.head s7 Relation.ReflTransGen.refl))))))
  · intro w hw
    simpa using hw
  · rfl

/-- C2, amended.  In every complete run of the concurrent collector,
an error *delivered* to the select loop decides the call: if the first
delivered error is `e`, the call returns a nil result with `e` wrapped
as `read_similar_artists: %v`, discarding all partial page data and
all later errors — and `e` stems from an actual failed page fetch.  If
no error reaches the loop before it breaks, the call returns a
non-error result, even when a failed fetch's error is still sitting
undelivered in `errC`'s one-slot buffer (see the counterexample); any
such buffered error also stems from an actual failed fetch. -/
theorem C2_delivered_error_discards_all (W pages offset : Nat)
    (fetch : Nat → Except String (List String)) (s : AState)
    (hrun : AReaches fetch pages offset (initAState W) s)
    (hfinal : AFinal s) :
    (∀ e, firstErr s.trace = some e →
      collectLoop pages s.trace = .error ("read_similar_artists: " ++ e) ∧
      ∃ p, fetch p = .error e) ∧
    (firstErr s.trace = none → ∃ l, collectLoop pages s.trace = .ok l) ∧
    (∀ e, s.errBuf = some e → ∃ p, fetch p = .error e) := by
  obtain ⟨-, -, -, -, -, -, -, herrt, herrb⟩ := AInv_reaches hrun
  refine ⟨?_, ?_, herrb⟩
  · intro e herr
    refine ⟨?_, herrt e (firstErr_mem s.trace e herr)⟩
    rw [firstErr_eq_head] at herr
    unfold collectLoop
    dsimp only
    rw [collect_foldl_errs]
    cases hfm : s.trace.filterMap
        (fun ev => match ev with | .err e => some e | _ => none) with
    | nil => rw [hfm] at herr; simp at herr
    | cons e0 rest =>
      rw [hfm] at herr
      simp only [List.head?_cons, Option.some.injEq] at herr
      subst herr
      simp
  · intro hnone
    rw [firstErr_eq_head] at hnone
    unfold collectLoop
    dsimp only
    rw [collect_foldl_errs]
    cases hfm : s.trace.filterMap
        (fun ev => match ev with | .err e => some e | _ => none) with
    | nil =>
      exact ⟨_, rfl⟩
    | cons e0 rest =>
      rw [hfm] at hnone
      simp at hnone

/-- C2, witness: the amended theorem applied to a concrete one-worker
run over a single page whose fetch fails; the worker deposits the
error, the loop drains it, and the call fails with it. -/
theorem C2_witness :
    collectLoop 1 (AState.trace ⟨2, [.done], [.err "boom"], none⟩) =
      .error ("read_similar_artists: " ++ "boom") ∧
    ∃ p, (fun _ : Nat => (Except.error "boom" : Except String (List String))) p =
      .error "boom" := by
  have s1 : AStep (fun _ : Nat => (Except.error "boom" : Except String (List String))) 1 0
      ⟨0, [] ++ .idle :: [], [], none⟩ ⟨1, [] ++ .working 1 :: [], [], none⟩ :=
    AStep.claimOk 0 [] [] [] none (by omega)
  have s2 : AStep (fun _ : Nat => (Except.error "boom" : Except String (List String))) 1 0
      ⟨1, [] ++ .working 1 :: [], [], none⟩
      ⟨1, [] ++ .ready (.err "boom") :: [], [], none⟩ :=
    AStep.fetchErr 1 1 "boom" [] [] [] none rfl
  have s3 : AStep (fun _ : Nat => (Except.error "boom" : Except String (List String))) 1 0
      ⟨1, [] ++ .ready (.err "boom") :: [], [], none⟩
      ⟨1, [] ++ .idle :: [], [], some "boom"⟩ :=
    AStep.depositErr 1 "boom" [] [] []
  have s4 : AStep (fun _ : Nat => (Except.error "boom" : Except String (List String))) 1 0
      ⟨1, [.idle], [], some "boom"⟩
      ⟨1, [.idle], [] ++ [.err "boom"], none⟩ :=
    AStep.recvErr 1 [.idle] [] "boom"
  have s5 : AStep (fun _ : Nat => (Except.error "boom" : Except String (List String))) 1 0
      ⟨1, [] ++ .idle :: [], [.err "boom"], none⟩
      ⟨2, [] ++ .done :: [], [.err "boom"], none⟩ :=
    AStep.claimEnd 1 [] [] [.err "boom"] none (by omega)
  have hrun : AReaches (fun _ : Nat => (Except.error "boom" : Except String (List String))) 1 0
      (initAState 1) ⟨2, [.done], [.err "boom"], none⟩ :=
    Relation.ReflTransGen.head s1 (Relation.ReflTransGen.head s2
      (Relation.ReflTransGen.head s3 (Relation.ReflTransGen.head s4
        (Relation.ReflTransGen.head s5 Relation.ReflTransGen.refl))))
  exact (C2_delivered_error_discards_all 1 1 0
      (fun _ : Nat => (Except.error "boom" : Except String (List String)))
      ⟨2, [.done], [.err "boom"], none⟩ hrun
      (by intro w hw; simpa using hw)).1 "boom" rfl

/-! ### Claim C3 -/

/-- C3, counterexample.  The claim asserts the fixed-offset buffer
write stays within the `pageSize × P` buffer for every claimable page,
"including when the offset O is positive".  With `P = 1, O = 1` the
shared counter hands out pages up to `P+O = 2`, and a run in which
page 2 is fetched non-empty delivers `out 2` to the select loop; the
write for page 2 needs `ret[10:20]` on a buffer of length
`pageSize × P = 10`, out of range (the Go `copy` at line 205 would
panic with a slice-bounds error). -/
theorem C3_counterexample :
    AReaches (fun _ => .ok ["a"]) 1 1 (initAState 1)
        ⟨2, [.idle], [.out 1 ["a"], .out 2 ["a"]], none⟩ ∧
    claimablePage 1 1 2 ∧ ¬ copySliceBounds 1 2 := by
  refine ⟨?_, ⟨by omega, by omega⟩, ?_⟩
  · have s1 : AStep (fun _ => .ok ["a"]) 1 1 ⟨0, [] ++ .idle :: [], [], none⟩
      ⟨1, [] ++ .working 1 :: [], [], none⟩ := AStep.claimOk 0 [] [] [] none (by omega)
    have s2 : AStep (fun _ => .ok ["a"]) 1 1 ⟨1, [] ++ .working 1 :: [], [], none⟩
        ⟨1, [] ++ .ready (.out 1 ["a"]) :: [], [], none⟩ :=
      AStep.fetchOk 1 1 ["a"] [] [] [] none rfl (by simp)
    have s3 : AStep (fun _ => .ok ["a"]) 1 1 ⟨1, [] ++ .ready (.out 1 ["a"]) :: [], [], none⟩
        ⟨1, [] ++ .idle :: [], [] ++ [.out 1 ["a"]], none⟩ :=
      AStep.send 1 1 ["a"] [] [] [] none
    have s4 : AStep (fun _ => .ok ["a"]) 1 1 ⟨1, [] ++ .idle :: [], [.out 1 ["a"]], none⟩
        ⟨2, [] ++ .working 2 :: [], [.out 1 ["a"]], none⟩ :=
      AStep.claimOk 1 [] [] _ none (by omega)
    have s5 : AStep (fun _ => .ok ["a"]) 1 1 ⟨2, [] ++ .working 2 :: [], [.out 1 ["a"]], none⟩
        ⟨2, [] ++ .ready (.out 2 ["a"]) :: [], [.out 1 ["a"]], none⟩ :=
      AStep.fetchOk 2 2 ["a"] [] [] _ none rfl (by simp)
    have s6 : AStep (fun _ => .ok ["a"]) 1 1
        ⟨2, [] ++ .ready (.out 2 ["a"]) :: [], [.out 1 ["a"]], none⟩
        ⟨2, [] ++ .idle :: [], [.out 1 ["a"]] ++ [.out 2 ["a"]], none⟩ :=
      AStep.send 2 2 ["a"] [] [] _ none
    exact Relation.ReflTransGen.head s1 (Relation.ReflTransGen.head s2
      (Relation.ReflTransGen.head s3 (Relation.ReflTransGen.head s4
        (Relation.ReflTransGen.head s5 (Relation.ReflTransGen.head s6
          Relation.ReflTransGen.refl)))))
  · rintro ⟨-, h2⟩
    simp [pageSize] at h2

/-- C3, amended.  With offset 0 (the configuration the pre-sized
buffer is dimensioned for), in every reachable state of the concurrent
collector, every page delivered to the select loop — hence every page
whose items are written into the buffer at fixed offset
`(page−1)×pageSize` — satisfies the Go slice bounds
`(page−1)×pageSize ≤ page×pageSize ≤ pageSize×P` of the write at line
205.  With a positive offset O, a claimable page above `P` breaks the
upper bound (see the counterexample). -/
theorem C3_buffer_write_in_bounds (W pages : Nat)
    (fetch : Nat → Except String (List String)) (s : AState) (p : Nat)
    (as : List String)
    (hrun : AReaches fetch pages 0 (initAState W) s)
    (hmem : AEvent.out p as ∈ s.trace) :
    claimablePage pages 0 p ∧ copySliceBounds pages p := by
  have hinv := AInv_reaches hrun
  have h5 := hinv.2.2.2.2.1 (AEvent.out p as) hmem p as rfl
  have hp1 : 1 ≤ p := h5.2.2.1
  have hple : p ≤ pages + 0 := h5.2.2.2.2
  refine ⟨⟨hp1, hple⟩, ?_, ?_⟩
  · simp only [pageSize]
    omega
  · simp only [pageSize]
    omega

/-- C3, witness: the amended theorem applied to a concrete one-worker,
one-page run with offset 0. -/
theorem C3_witness :
    claimablePage 1 0 1 ∧ copySliceBounds 1 1 := by
  have s1 : AStep (fun _ => .ok ["a"]) 1 0 ⟨0, [] ++ .idle :: [], [], none⟩
      ⟨1, [] ++ .working 1 :: [], [], none⟩ := AStep.claimOk 0 [] [] [] none (by omega)
  have s2 : AStep (fun _ => .ok ["a"]) 1 0 ⟨1, [] ++ .working 1 :: [], [], none⟩
      ⟨1, [] ++ .ready (.out 1 ["a"]) :: [], [], none⟩ :=
    AStep.fetchOk 1 1 ["a"] [] [] [] none rfl (by simp)
  have s3 : AStep (fun _ => .ok ["a"]) 1 0 ⟨1, [] ++ .ready (.out 1 ["a"]) :: [], [], none⟩
      ⟨1, [] ++ .idle :: [], [] ++ [.out 1 ["a"]], none⟩ :=
    AStep.send 1 1 ["a"] [] [] [] none
  exact C3_buffer_write_in_bounds 1 1 (fun _ => .ok ["a"])
    ⟨1, [.idle], [.out 1 ["a"]], none⟩ 1 ["a"]
    (Relation.ReflTransGen.head s1 (Relation.ReflTransGen.head s2
      (Relation.ReflTransGen.head s3 Relation.ReflTransGen.refl)))
    (by simp)

/-! ### Claim C8 -/

/-- C8.  (1) For every page fetch whose resolved query parameter
`page` differs from the requested page number (with a non-empty band
name and a 200 status), `readSimilarArtistsPage` returns the empty,
non-error result `(nil, nil)` — uniformly in the body, which is never
parsed.  (2) A worker holding a claimed page whose fetch returned the
empty result steps to `done` — it stops claiming further pages — and
(3) a `done` worker stays `done` under every step of the system. -/
theorem C8_overflow_signal_stops_worker :
    (∀ (bandName : String) (status : Nat) (resolved : String) (pageN : Nat)
        (body : List Tok),
      bandName ≠ "" → status = 200 → resolved ≠ toString pageN →
      readSimilarArtistsPage bandName status resolved pageN body = .ok []) ∧
    (∀ (fetch : Nat → Except String (List String)) (pages offset c p : Nat)
        (l1 l2 : List WStatus) (tr : List AEvent) (b : Option String),
      fetch p = .ok [] →
      AStep fetch pages offset ⟨c, l1 ++ .working p :: l2, tr, b⟩
        ⟨c, l1 ++ .done :: l2, tr, b⟩) ∧
    (∀ (fetch : Nat → Except String (List String)) (pages offset : Nat)
        (s s' : AState),
      AStep fetch pages offset s s' →
      ∀ (i : Nat), s.workers[i]? = some WStatus.done →
        s'.workers[i]? = some WStatus.done) := by
  refine ⟨?_, ?_, ?_⟩
  · intro bandName status resolved pageN body hband hstatus hpage
    unfold readSimilarArtistsPage
    rw [if_neg hband, if_neg (by simp [hstatus]), if_pos hpage]
  · intro fetch pages offset c p l1 l2 tr b hfe
    exact AStep.fetchEmpty c p l1 l2 tr b hfe
  · intro fetch pages offset s s' hstep i hd
    exact AStep_done_persists hstep i hd

/-- C8, witness: the theorem applied at a concrete redirected fetch
(page 3 requested, server resolved page "1") and a concrete
empty-page worker step. -/
theorem C8_witness :
    readSimilarArtistsPage "Fugazi" 200 "1" 3
        [.start "ol" [("class", "similar-artists")]] = .ok [] ∧
    AStep (fun _ => .ok []) 5 0 ⟨0, [.working 1], [], none⟩ ⟨0, [.done], [], none⟩ := by
  constructor
  · exact C8_overflow_signal_stops_worker.1 "Fugazi" 200 "1" 3 _
      (by decide) rfl (by decide)
  · exact C8_overflow_signal_stops_worker.2.1 (fun _ => .ok []) 5 0 0 1 [] [] [] none rfl


/-! ## Lemmas for the concurrent/sequential equivalence -/

theorem writePage_length (ret : List String) (p : Nat) (as : List String) :
    (writePage ret p as).length = ret.length := by
  unfold writePage
  rw [List.length_map, List.length_range]

theorem writePage_getElem? (ret : List String) (p : Nat) (as : List String) (i : Nat) :
    (writePage ret p as)[i]? =
      if i < ret.length then
        some (if (p - 1) * pageSize ≤ i ∧ i < (p - 1) * pageSize + min pageSize as.length
              then as.getD (i - (p - 1) * pageSize) ""
              else ret.getD i "")
      else none := by
  unfold writePage
  rw [List.getElem?_map]
  by_cases hi : i < ret.length
  · rw [List.getElem?_range hi]
    simp [hi]
  · rw [List.getElem?_eq_none (by simpa using le_of_not_lt hi)]
    simp [hi]

theorem writePage_comm (ret : List String) (p q : Nat) (as bs : List String)
    (hp : 1 ≤ p) (hq : 1 ≤ q) (hpq : p ≠ q) :
    writePage (writePage ret p as) q bs = writePage (writePage ret q bs) p as := by
  have hminas : min pageSize as.length ≤ pageSize := Nat.min_le_left _ _
  have hminbs : min pageSize bs.length ≤ pageSize := Nat.min_le_left _ _
  have hdisj : ∀ i, ¬ (((p - 1) * pageSize ≤ i ∧
      i < (p - 1) * pageSize + min pageSize as.length) ∧
      ((q - 1) * pageSize ≤ i ∧ i < (q - 1) * pageSize + min pageSize bs.length)) := by
    intro i
    rintro ⟨⟨hp1, hp2⟩, ⟨hq1, hq2⟩⟩
    rcases Nat.lt_or_ge p q with hlt | hge
    · have : p * pageSize ≤ (q - 1) * pageSize := Nat.mul_le_mul_right _ (by omega)
      have hppos : (p - 1) * pageSize + pageSize = p * pageSize := by
        have : p - 1 + 1 = p := by omega
        calc (p - 1) * pageSize + pageSize = (p - 1 + 1) * pageSize := by ring
          _ = p * pageSize := by rw [this]
      omega
    · have hqp : q < p := by omega
      have : q * pageSize ≤ (p - 1) * pageSize := Nat.mul_le_mul_right _ (by omega)
      have hqpos : (q - 1) * pageSize + pageSize = q * pageSize := by
        have : q - 1 + 1 = q := by omega
        calc (q - 1) * pageSize + pageSize = (q - 1 + 1) * pageSize := by ring
          _ = q * pageSize := by rw [this]
      omega
  apply List.ext_getElem?
  intro i
  rw [writePage_getElem?, writePage_getElem?, writePage_length, writePage_length]
  by_cases hi : i < ret.length
  · rw [if_pos hi, if_pos hi]
    congr 1
    have hgdp : (writePage ret p as).getD i "" =
        if (p - 1) * pageSize ≤ i ∧ i < (p - 1) * pageSize + min pageSize as.length
        then as.getD (i - (p - 1) * pageSize) "" else ret.getD i "" := by
      rw [List.getD_eq_getElem?_getD, writePage_getElem?, if_pos hi]
      rfl
    have hgdq : (writePage ret q bs).getD i "" =
        if (q - 1) * pageSize ≤ i ∧ i < (q - 1) * pageSize + min pageSize bs.length
        then bs.getD (i - (q - 1) * pageSize) "" else ret.getD i "" := by
      rw [List.getD_eq_getElem?_getD, writePage_getElem?, if_pos hi]
      rfl
    by_cases hinp : (p - 1) * pageSize ≤ i ∧ i < (p - 1) * pageSize + min pageSize as.length
    · have hinq : ¬ ((q - 1) * pageSize ≤ i ∧
          i < (q - 1) * pageSize + min pageSize bs.length) :=
        fun hc => hdisj i ⟨hinp, hc⟩
      rw [if_neg hinq, if_pos hinp, hgdp, if_pos hinp]
    · by_cases hinq : (q - 1) * pageSize ≤ i ∧
          i < (q - 1) * pageSize + min pageSize bs.length
      · rw [if_pos hinq, if_neg hinp, hgdq, if_pos hinq]
      · rw [if_neg hinq, if_neg hinp, hgdp, hgdq, if_neg hinp, if_neg hinq]
  · rw [if_neg hi, if_neg hi]

theorem collectStep_comm_out (st : CollState) (p q : Nat) (as bs : List String)
    (hp : 1 ≤ p) (hq : 1 ≤ q) (hpq : p ≠ q) :
    collectStep (collectStep st (.out p as)) (.out q bs) =
      collectStep (collectStep st (.out q bs)) (.out p as) := by
  simp only [collectStep, CollState.mk.injEq]
  exact ⟨writePage_comm st.ret p q as bs hp hq hpq, by omega, trivial⟩

theorem ext_getD {l1 l2 : List String} (hlen : l1.length = l2.length)
    (h : ∀ i, i < l1.length → l1.getD i "" = l2.getD i "") : l1 = l2 := by
  apply List.ext_getElem?
  intro i
  by_cases hi : i < l1.length
  · have h1 : l1[i]? = some (l1.getD i "") := by
      rw [List.getD_eq_getElem?_getD]
      cases hx : l1[i]? with
      | some v => rfl
      | none =>
        rw [List.getElem?_eq_none_iff] at hx
        omega
    have h2 : l2[i]? = some (l2.getD i "") := by
      rw [List.getD_eq_getElem?_getD]
      cases hx : l2[i]? with
      | some v => rfl
      | none =>
        rw [List.getElem?_eq_none_iff] at hx
        omega
    rw [h1, h2, h i hi]
  · rw [List.getElem?_eq_none_iff.mpr (by omega),
      List.getElem?_eq_none_iff.mpr (by omega)]

theorem getD_replicate_empty (r j : Nat) : (List.replicate r "").getD j "" = "" := by
  rw [List.getD_eq_getElem?_getD]
  by_cases hj : j < r
  · rw [List.getElem?_replicate]
    simp [hj]
  · rw [List.getElem?_eq_none_iff.mpr (by simpa using le_of_not_lt hj)]
    rfl

theorem writePage_getD (ret : List String) (p : Nat) (as : List String) (i : Nat)
    (hi : i < ret.length) :
    (writePage ret p as).getD i "" =
      if (p - 1) * pageSize ≤ i ∧ i < (p - 1) * pageSize + min pageSize as.length
      then as.getD (i - (p - 1) * pageSize) ""
      else ret.getD i "" := by
  rw [List.getD_eq_getElem?_getD, writePage_getElem?, if_pos hi]
  rfl

theorem writePage_boundary (C : List String) (r : Nat) (p : Nat) (as : List String)
    (hC : C.length = (p - 1) * pageSize) (hlen : as.length ≤ pageSize)
    (hr : as.length ≤ r) :
    writePage (C ++ List.replicate r "") p as =
      C ++ as ++ List.replicate (r - as.length) "" := by
  have hmin : min pageSize as.length = as.length := Nat.min_eq_right hlen
  apply ext_getD
  · rw [writePage_length]
    simp
    omega
  · intro i hi
    rw [writePage_length] at hi
    have hi' : i < C.length + r := by simpa using hi
    rw [writePage_getD _ _ _ _ (by simpa using hi'), hmin, List.append_assoc]
    by_cases h1 : i < C.length
    · rw [if_neg (by omega), List.getD_append _ _ _ _ h1, List.getD_append _ _ _ _ h1]
    · have h1' : C.length ≤ i := le_of_not_lt h1
      rw [List.getD_append_right _ _ _ _ h1', List.getD_append_right _ _ _ _ h1']
      by_cases h2 : i - C.length < as.length
      · rw [if_pos (by omega), List.getD_append _ _ _ _ h2, hC]
      · have h2' : as.length ≤ i - C.length := le_of_not_lt h2
        rw [if_neg (by omega), List.getD_append_right _ _ _ _ h2',
          getD_replicate_empty, getD_replicate_empty]

theorem count_range' (p : Nat) : ∀ (n s : Nat),
    (List.range' s n).count p = if s ≤ p ∧ p < s + n then 1 else 0 := by
  intro n
  induction n with
  | zero =>
    intro s
    rw [if_neg (by omega)]
    simp
  | succ n ih =>
    intro s
    show (s :: List.range' (s + 1) n).count p = _
    rw [List.count_cons, ih (s + 1)]
    by_cases h2 : p = s
    · have hinner : (if s + 1 ≤ p ∧ p < s + 1 + n then 1 else 0) = 0 := if_neg (by omega)
      have houter : (if s ≤ p ∧ p < s + (n + 1) then 1 else 0) = 1 := if_pos (by omega)
      rw [hinner, houter]
      have hps : (s == p) = true := by simp [h2]
      rw [hps]
      simp
    · have hps : (s == p) = false := by
        simp only [beq_eq_false_iff_ne, ne_eq]
        exact fun hc => h2 hc.symm
      by_cases h1 : s + 1 ≤ p ∧ p < s + 1 + n
      · have hinner : (if s + 1 ≤ p ∧ p < s + 1 + n then 1 else 0) = 1 := if_pos h1
        have houter : (if s ≤ p ∧ p < s + (n + 1) then 1 else 0) = 1 := if_pos (by omega)
        rw [hinner, houter, hps]
        simp
      · have hinner : (if s + 1 ≤ p ∧ p < s + 1 + n then 1 else 0) = 0 := if_neg h1
        have houter : (if s ≤ p ∧ p < s + (n + 1) then 1 else 0) = 0 := if_neg (by omega)
        rw [hinner, houter, hps]
        simp

theorem pendingPages_empty_of_final (fetch : Nat → Except String (List String)) :
    ∀ (ws : List WStatus), (∀ w ∈ ws, w = .done) →
      ws.filterMap (wPendingPage fetch) = [] := by
  intro ws
  induction ws with
  | nil => intro _; rfl
  | cons w rest ih =>
    intro h
    have hw : w = .done := h w (List.mem_cons_self _ _)
    subst hw
    rw [List.filterMap_cons]
    have : wPendingPage fetch .done = none := rfl
    rw [this]
    exact ih (fun w hw => h w (List.mem_cons_of_mem _ hw))

theorem specSeqCollect_ok (band : Nat → List String) :
    ∀ (pl : List Nat),
      specSeqCollect (fun p => .ok (band p)) pl = .ok (pl.map band).flatten := by
  intro pl
  induction pl with
  | nil => simp [specSeqCollect]
  | cons q rest ih =>
    rw [specSeqCollect]
    dsimp only
    rw [ih]
    simp [Except.map]

theorem join_nil_of_all_nil (band : Nat → List String) :
    ∀ (l : List Nat), (∀ x ∈ l, band x = []) → (l.map band).flatten = [] := by
  intro l
  induction l with
  | nil => intro _; rfl
  | cons q rest ih =>
    intro h
    rw [List.map_cons, List.flatten_cons, h q (List.mem_cons_self _ _),
      ih (fun x hx => h x (List.mem_cons_of_mem _ hx))]
    rfl

theorem join_length_full (band : Nat → List String) :
    ∀ (j : Nat), (∀ p, 1 ≤ p → p ≤ j → (band p).length = pageSize) →
      (((List.range' 1 j).map band).flatten).length = pageSize * j := by
  intro j
  induction j with
  | zero => intro _; rfl
  | succ j ih =>
    intro h
    rw [List.range'_1_concat, List.map_append, List.flatten_append]
    rw [List.length_append, ih (fun p h1 h2 => h p h1 (by omega))]
    have hlast : (band (1 + j)).length = pageSize := h (1 + j) (by omega) (by omega)
    simp [hlast]
    ring

theorem fold_full_prefix (band : Nat → List String) (P : Nat) :
    ∀ (j : Nat), j ≤ P → (∀ p, 1 ≤ p → p ≤ j → (band p).length = pageSize) →
      ((List.range' 1 j).map (fun p => AEvent.out p (band p))).foldl collectStep
          ⟨List.replicate (pageSize * P) "", 0, []⟩ =
        ⟨((List.range' 1 j).map band).flatten ++
            List.replicate (pageSize * P - pageSize * j) "", pageSize * j, []⟩ := by
  intro j
  induction j with
  | zero =>
    intro _ _
    simp
  | succ j ih =>
    intro hjP hfull
    rw [List.range'_1_concat, List.map_append, List.foldl_append,
      ih (by omega) (fun p h1 h2 => hfull p h1 (by omega))]
    rw [List.map_singleton, List.foldl_cons, List.foldl_nil]
    have hlast : (band (1 + j)).length = pageSize := hfull (1 + j) (by omega) (by omega)
    show (⟨writePage (((List.range' 1 j).map band).flatten ++
        List.replicate (pageSize * P - pageSize * j) "") (1 + j) (band (1 + j)),
        pageSize * j + (band (1 + j)).length, []⟩ : CollState) = _
    have hC : (((List.range' 1 j).map band).flatten).length = (1 + j - 1) * pageSize := by
      rw [join_length_full band j (fun p h1 h2 => hfull p h1 (by omega))]
      have : 1 + j - 1 = j := by omega
      rw [this, Nat.mul_comm]
    rw [writePage_boundary _ _ _ _ hC (by rw [hlast]) (by
      rw [hlast]
      have : pageSize * (j + 1) ≤ pageSize * P := Nat.mul_le_mul_left _ hjP
      simp only [pageSize] at *
      omega)]
    rw [List.map_append, List.flatten_append]
    simp only [List.map_cons, List.map_nil, List.flatten_cons, List.flatten_nil,
      List.append_nil]
    rw [hlast]
    have h1 : pageSize * P - pageSize * j - pageSize = pageSize * P - pageSize * (j + 1) := by
      simp only [pageSize] at *
      omega
    have h2 : pageSize * j + pageSize = pageSize * (j + 1) := by ring
    rw [h1, h2, List.append_assoc]

theorem trace_out_only (band : Nat → List String) :
    ∀ (tr : List AEvent), (∀ ev ∈ tr, ∃ p, ev = AEvent.out p (band p)) →
      tr = (outPages tr).map (fun p => AEvent.out p (band p)) := by
  intro tr
  induction tr with
  | nil => intro _; rfl
  | cons ev rest ih =>
    intro h
    obtain ⟨p, hp⟩ := h ev (List.mem_cons_self _ _)
    subst hp
    have houts : outPages (AEvent.out p (band p) :: rest) = p :: outPages rest := by
      simp [outPages]
    rw [houts, List.map_cons]
    congr 1
    exact ih (fun ev hev => h ev (List.mem_cons_of_mem _ hev))

theorem final_characterization (W P K : Nat) (band : Nat → List String) (s : AState)
    (hW : 1 ≤ W) (hK : K < P)
    (hne : ∀ p, 1 ≤ p → p ≤ K → band p ≠ [])
    (hemp : ∀ p, K < p → band p = [])
    (hrun : AReaches (fun p => Except.ok (band p)) P 0 (initAState W) s)
    (hfin : AFinal s) :
    (∀ ev ∈ s.trace, ∃ p, ev = AEvent.out p (band p)) ∧
    (outPages s.trace).Perm (List.range' 1 K) := by
  obtain ⟨hlen, hcount, hpage, hdone, htrace, hready, herrw, herrt, herrb⟩ := AInv_reaches hrun
  constructor
  · intro ev hev
    cases ev with
    | out p as =>
      have h5 := htrace (AEvent.out p as) hev p as rfl
      have hband : band p = as := by
        have h51 := h5.1
        simpa using h51
      exact ⟨p, by rw [hband]⟩
    | err e =>
      obtain ⟨p, hpe⟩ := herrt e hev
      simp at hpe
  · have hKc : K < s.counter := by
      have hpos : 0 < s.workers.length := by
        rw [hlen]
        exact hW
      obtain ⟨w, hw⟩ := List.exists_mem_of_length_pos hpos
      have hdw := hfin w hw
      obtain ⟨p, hp1, hp2, hp3⟩ := hdone w hw hdw
      rcases hp3 with hover | hempf
      · omega
      · have hbp : band p = [] := by simpa using hempf
        have hpK : K < p := by
          by_contra hc
          exact hne p hp1 (by omega) hbp
        omega
    have hpend : s.workers.filterMap (wPendingPage (fun p => Except.ok (band p))) = [] :=
      pendingPages_empty_of_final _ _ hfin
    rw [List.perm_iff_count]
    intro p
    have hc := hcount p
    rw [hpend] at hc
    simp only [List.count_nil, Nat.zero_add] at hc
    rw [count_range' p K 1, hc]
    unfold pageIndicator
    by_cases hin : 1 ≤ p ∧ p ≤ K
    · have hok : okNonempty ((fun p => Except.ok (band p)) p) = true := by
        have hbne : band p ≠ [] := hne p hin.1 hin.2
        cases hb : band p with
        | nil => exact absurd hb hbne
        | cons a rest => simp [okNonempty, hb]
      rw [if_pos ⟨⟨hin.1, by omega, by omega⟩, hok⟩, if_pos (by omega)]
    · rw [if_neg, if_neg (by omega)]
      rintro ⟨⟨hg1, hg2, hg3⟩, hg4⟩
      have hbne : band p ≠ [] := by
        intro hb
        simp [okNonempty, hb] at hg4
      have hpK : p ≤ K := by
        by_contra hc
        exact hbne (hemp p (by omega))
      exact hin ⟨hg1, hpK⟩

/-- First-occurrence deduplication of an artist list ("as an ordered
set after removing duplicates"). -/
def dedupFirst : List String → List String :=
  go []
where
  /-- Keep the first occurrence of each string, in order. -/
  go (seen : List String) : List String → List String
    | [] => []
    | x :: rest =>
      if seen.contains x then go seen rest
      else x :: go (seen ++ [x]) rest

theorem collectLoop_over_pages (band : Nat → List String) (P K : Nat)
    (hKP : K ≤ P)
    (hfull : ∀ p, 1 ≤ p → p < K → (band p).length = pageSize)
    (hlast : ∀ p, p = K → (band p).length ≤ pageSize) :
    collectLoop P ((List.range' 1 K).map (fun p => AEvent.out p (band p))) =
      .ok ((List.range' 1 K).map band).flatten := by
  unfold collectLoop
  dsimp only
  cases K with
  | zero =>
    simp
  | succ j =>
    rw [List.range'_1_concat, List.map_append, List.foldl_append,
      fold_full_prefix band P j (by omega) (fun p h1 h2 => hfull p h1 (by omega))]
    rw [List.map_singleton, List.foldl_cons, List.foldl_nil]
    have hlastj : (band (1 + j)).length ≤ pageSize := hlast (1 + j) (by omega)
    have hC : (((List.range' 1 j).map band).flatten).length = (1 + j - 1) * pageSize := by
      rw [join_length_full band j (fun p h1 h2 => hfull p h1 (by omega))]
      have h0 : 1 + j - 1 = j := by omega
      rw [h0, Nat.mul_comm]
    show (match (⟨writePage (((List.range' 1 j).map band).flatten ++
        List.replicate (pageSize * P - pageSize * j) "") (1 + j) (band (1 + j)),
        pageSize * j + (band (1 + j)).length, []⟩ : CollState).errs with
      | [] => Except.ok (List.take (pageSize * j + (band (1 + j)).length)
          (writePage (((List.range' 1 j).map band).flatten ++
            List.replicate (pageSize * P - pageSize * j) "") (1 + j) (band (1 + j))))
      | e :: _ => Except.error ("read_similar_artists: " ++ e)) = _
    rw [writePage_boundary _ _ _ _ hC hlastj (by
      have hmul : pageSize * (j + 1) ≤ pageSize * P := Nat.mul_le_mul_left _ hKP
      simp only [pageSize] at *
      omega)]
    dsimp only
    have htake : (((List.range' 1 j).map band).flatten ++ band (1 + j) ++
        List.replicate (pageSize * P - pageSize * j - (band (1 + j)).length) "").take
          (pageSize * j + (band (1 + j)).length) =
        ((List.range' 1 j).map band).flatten ++ band (1 + j) := by
      have hlen2 : (((List.range' 1 j).map band).flatten ++ band (1 + j)).length =
          pageSize * j + (band (1 + j)).length := by
        rw [List.length_append, join_length_full band j (fun p h1 h2 => hfull p h1 (by omega))]
      rw [← hlen2, List.take_left]
    rw [htake, List.map_append, List.flatten_append]
    simp

theorem specSeq_ok_flatten (band : Nat → List String) (P : Nat) :
    readSimilarArtists (fun p => Except.ok (band p)) P 0 =
      .ok ((List.range' 1 P).map band).flatten := by
  rw [readSimilarArtists, readSimilarArtistsGo_spec]
  have hpl : (List.range P).map (fun k => 1 + 0 + k) = List.range' 1 P := by
    rw [List.range'_eq_map_range]
  rw [hpl, specSeqCollect_ok]
  simp [Except.map]

/-! ### Claim C4 -/

/-- C4, amended.  For every band whose true similar-artist listing has
`K` pages with `K < P` — pages `1..K` non-empty (full pages of
`pageSize` items except possibly the last, of at most `pageSize`
items) and pages beyond `K` empty — and offset 0, every complete run
of the concurrent collector with `W ≥ 1` workers, regardless of
scheduling and of which worker discovers the pagination boundary,
returns a result identical to sequential collection with the same `P`
and offset — and hence also identical as an ordered set after removing
duplicates (`dedupFirst`).  With a positive offset the two modes
differ: the concurrent counter claims pages `1..P+O` while sequential
mode reads pages `O+1..O+P` (see the counterexample). -/
theorem C4_concurrent_matches_sequential (W P K : Nat) (band : Nat → List String)
    (s : AState)
    (hW : 1 ≤ W) (hK : K < P)
    (hne : ∀ p, 1 ≤ p → p ≤ K → band p ≠ [])
    (hemp : ∀ p, K < p → band p = [])
    (hfull : ∀ p, 1 ≤ p → p < K → (band p).length = pageSize)
    (hlast : (band K).length ≤ pageSize)
    (hrun : AReaches (fun p => Except.ok (band p)) P 0 (initAState W) s)
    (hfin : AFinal s) :
    collectLoop P s.trace = readSimilarArtists (fun p => Except.ok (band p)) P 0 ∧
    (collectLoop P s.trace).map dedupFirst =
      (readSimilarArtists (fun p => Except.ok (band p)) P 0).map dedupFirst := by
  obtain ⟨hout, hperm⟩ := final_characterization W P K band s hW hK hne hemp hrun hfin
  have htr : s.trace = (outPages s.trace).map (fun p => AEvent.out p (band p)) :=
    trace_out_only band s.trace hout
  have hpermmap : s.trace.Perm
      ((List.range' 1 K).map (fun p => AEvent.out p (band p))) := by
    rw [htr]
    exact hperm.map _
  have hmem1 : ∀ ev ∈ s.trace, ∃ p, 1 ≤ p ∧ p ≤ K ∧ ev = AEvent.out p (band p) := by
    intro ev hev
    have hev2 : ev ∈ (List.range' 1 K).map (fun p => AEvent.out p (band p)) :=
      hpermmap.mem_iff.mp hev
    obtain ⟨p, hp, hpe⟩ := List.mem_map.mp hev2
    have hpr := List.mem_range'_1.mp hp
    exact ⟨p, hpr.1, by omega, hpe.symm⟩
  have hfold : s.trace.foldl collectStep
        ⟨List.replicate (pageSize * P) "", 0, []⟩ =
      ((List.range' 1 K).map (fun p => AEvent.out p (band p))).foldl collectStep
        ⟨List.replicate (pageSize * P) "", 0, []⟩ := by
    apply hpermmap.foldl_eq'
    intro x hx y hy z
    obtain ⟨px, hpx1, hpx2, hpx3⟩ := hmem1 x hx
    obtain ⟨py, hpy1, hpy2, hpy3⟩ := hmem1 y hy
    subst hpx3
    subst hpy3
    by_cases hxy : px = py
    · rw [hxy]
    · exact collectStep_comm_out z px py (band px) (band py) hpx1 hpy1 hxy
  have hloopeq : collectLoop P s.trace =
      collectLoop P ((List.range' 1 K).map (fun p => AEvent.out p (band p))) := by
    unfold collectLoop
    rw [hfold]
  have hmain : collectLoop P s.trace =
      readSimilarArtists (fun p => Except.ok (band p)) P 0 := by
    rw [hloopeq, collectLoop_over_pages band P K (by omega) hfull
      (fun p hp => by rw [hp]; exact hlast), specSeq_ok_flatten]
    have hsplit : List.range' 1 K ++ List.range' (1 + K) (P - K) = List.range' 1 P := by
      have happ := List.range'_append 1 K (P - K) 1
      simp only [Nat.one_mul] at happ
      rw [happ]
      congr 1
      omega
    rw [← hsplit, List.map_append, List.flatten_append,
      join_nil_of_all_nil band (List.range' (1 + K) (P - K)) (fun x hx => by
        have hxr := List.mem_range'.mp hx
        exact hemp x (by omega))]
    simp
  exact ⟨hmain, by rw [hmain]⟩

/-- C4, counterexample.  With offset `O = 1`, pages `P = 2`, one
worker, and a band whose true listing is the single page
`["a", "b"]`: the concurrent collector claims pages starting at 1
(ignoring the offset), collects `["a", "b"]` and stops at the empty
page 2, while sequential collection reads pages `2, 3` and returns
`[]`.  Even as ordered sets after removing duplicates the results
differ, refuting the claim as stated for positive offsets. -/
theorem C4_counterexample :
    AReaches (fun p => Except.ok (if p = 1 then ["a", "b"] else [])) 2 1 (initAState 1)
        ⟨2, [.done], [.out 1 ["a", "b"]], none⟩ ∧
    AFinal ⟨2, [.done], [.out 1 ["a", "b"]], none⟩ ∧
    (collectLoop 2 [.out 1 ["a", "b"]]).map dedupFirst = .ok ["a", "b"] ∧
    (readSimilarArtists (fun p => Except.ok (if p = 1 then ["a", "b"] else [])) 2 1).map
        dedupFirst = .ok [] := by
  refine ⟨?_, ?_, ?_, ?_⟩
  · have s1 : AStep (fun p => Except.ok (if p = 1 then ["a", "b"] else [])) 2 1
        ⟨0, [] ++ .idle :: [], [], none⟩ ⟨1, [] ++ .working 1 :: [], [], none⟩ :=
      AStep.claimOk 0 [] [] [] none (by omega)
    have s2 : AStep (fun p => Except.ok (if p = 1 then ["a", "b"] else [])) 2 1
        ⟨1, [] ++ .working 1 :: [], [], none⟩
        ⟨1, [] ++ .ready (.out 1 ["a", "b"]) :: [], [], none⟩ :=
      AStep.fetchOk 1 1 ["a", "b"] [] [] [] none rfl (by simp)
    have s3 : AStep (fun p => Except.ok (if p = 1 then ["a", "b"] else [])) 2 1
        ⟨1, [] ++ .ready (.out 1 ["a", "b"]) :: [], [], none⟩
        ⟨1, [] ++ .idle :: [], [] ++ [.out 1 ["a", "b"]], none⟩ :=
      AStep.send 1 1 ["a", "b"] [] [] [] none
    have s4 : AStep (fun p => Except.ok (if p = 1 then ["a", "b"] else [])) 2 1
        ⟨1, [] ++ .idle :: [], [.out 1 ["a", "b"]], none⟩
        ⟨2, [] ++ .working 2 :: [], [.out 1 ["a", "b"]], none⟩ :=
      AStep.claimOk 1 [] [] _ none (by omega)
    have s5 : AStep (fun p => Except.ok (if p = 1 then ["a", "b"] else [])) 2 1
        ⟨2, [] ++ .working 2 :: [], [.out 1 ["a", "b"]], none⟩
        ⟨2, [] ++ .done :: [], [.out 1 ["a", "b"]], none⟩ :=
      AStep.fetchEmpty 2 2 [] [] _ none rfl
    exact Relation.ReflTransGen.head s1 (Relation.ReflTransGen.head s2
      (Relation.ReflTransGen.head s3 (Relation.ReflTransGen.head s4
        (Relation.ReflTransGen.head s5 Relation.ReflTransGen.refl))))
  · intro w hw
    simpa using hw
  · rfl
  · rfl

/-- C4, witness: the amended theorem applied to a concrete complete
run with offset 0 (`W = 1`, `P = 2`, one true page `["a", "b"]`). -/
theorem C4_witness :
    collectLoop 2 (AState.trace ⟨2, [.done], [.out 1 ["a", "b"]], none⟩) =
      readSimilarArtists (fun p => Except.ok (if p = 1 then ["a", "b"] else [])) 2 0 := by
  have s1 : AStep (fun p => Except.ok (if p = 1 then ["a", "b"] else [])) 2 0
      ⟨0, [] ++ .idle :: [], [], none⟩ ⟨1, [] ++ .working 1 :: [], [], none⟩ :=
    AStep.claimOk 0 [] [] [] none (by omega)
  have s2 : AStep (fun p => Except.ok (if p = 1 then ["a", "b"] else [])) 2 0
      ⟨1, [] ++ .working 1 :: [], [], none⟩
      ⟨1, [] ++ .ready (.out 1 ["a", "b"]) :: [], [], none⟩ :=
    AStep.fetchOk 1 1 ["a", "b"] [] [] [] none rfl (by simp)
  have s3 : AStep (fun p => Except.ok (if p = 1 then ["a", "b"] else [])) 2 0
      ⟨1, [] ++ .ready (.out 1 ["a", "b"]) :: [], [], none⟩
      ⟨1, [] ++ .idle :: [], [] ++ [.out 1 ["a", "b"]], none⟩ :=
    AStep.send 1 1 ["a", "b"] [] [] [] none
  have s4 : AStep (fun p => Except.ok (if p = 1 then ["a", "b"] else [])) 2 0
      ⟨1, [] ++ .idle :: [], [.out 1 ["a", "b"]], none⟩
      ⟨2, [] ++ .working 2 :: [], [.out 1 ["a", "b"]], none⟩ :=
    AStep.claimOk 1 [] [] _ none (by omega)
  have s5 : AStep (fun p => Except.ok (if p = 1 then ["a", "b"] else [])) 2 0
      ⟨2, [] ++ .working 2 :: [], [.out 1 ["a", "b"]], none⟩
      ⟨2, [] ++ .done :: [], [.out 1 ["a", "b"]], none⟩ :=
    AStep.fetchEmpty 2 2 [] [] _ none rfl
  have hrun : AReaches (fun p => Except.ok (if p = 1 then ["a", "b"] else [])) 2 0
      (initAState 1) ⟨2, [.done], [.out 1 ["a", "b"]], none⟩ :=
    Relation.ReflTransGen.head s1 (Relation.ReflTransGen.head s2
      (Relation.ReflTransGen.head s3 (Relation.ReflTransGen.head s4
        (Relation.ReflTransGen.head s5 Relation.ReflTransGen.refl))))
  exact (C4_concurrent_matches_sequential 1 2 1
    (fun p => if p = 1 then ["a", "b"] else [])
    ⟨2, [.done], [.out 1 ["a", "b"]], none⟩
    (by omega) (by omega)
    (fun p h1 h2 => by
      have hp : p = 1 := by omega
      subst hp
      simp)
    (fun p hp => by
      have hp1 : p ≠ 1 := by omega
      simp [hp1])
    (fun p h1 h2 => by omega)
    (by simp [pageSize])
    hrun
    (by intro w hw; simpa using hw)).1

end Lastfmq
